import Mathlib

/-
Verification of the typing-cadence simulation engine of human_typer.py
(class GlobalTypingSimulator and the GUI-level start handler).

The engine is embedded shallowly: the background-thread body _run and its
helpers become pure functions from an environment (configuration snapshot,
random stream, asynchronous stop flag, keystroke-sink failure oracles) and a
threaded counter state to a trace of abstract actions plus a control result.

Randomness: every call to random.random / random.uniform / random.choice
consumes one draw from the stream g at the next index (random.uniform a b is
a + r * (b - a) for a fresh draw r; random.choice picks by flooring r * len).
The stop flag (threading.Event) is asynchronous: the k-th is_set() check of a
session reads stop k.  The keystroke sink (pynput) may raise: character
emissions go through _type_char, whose try/except swallows the failure
(recorded as an ok := false flag on the action); the space / enter /
backspace emissions in _run call keyboard.press directly with no handler, so
a failure there (oracle kfail) propagates and crashes the thread.
Machine floats of the source are modelled as rationals; Python str.isalpha /
str.strip are modelled at their ASCII meaning (all inputs of the claims are
ASCII).  The status-sink calls (_schedule_status) and the completion
callback hand-off (_on_finished, with a stop_callback installed as the GUI
always does) are recorded as trace actions.
-/

set_option maxHeartbeats 1000000

/-
Lean's core marks the rational-number arithmetic irreducible, which blocks
the elaborator's reduction in decide proofs over concrete traces; the
kernel itself checks them fine.  Restore default reducibility for this
development so concrete runs evaluate.
-/
set_option allowUnsafeReducibility true
attribute [local semireducible] Rat.add Rat.mul Rat.sub Rat.neg Rat.inv Rat.div

namespace HumanTyper

/-- Site tag for each time.sleep call of _run, identifying the source line
that produced the delay. -/
inductive SleepKind where
  | countdownTick
  | startBuffer
  | paragraphPause
  | typoDelay
  | correctionDelay
  | backspaceDelay
  | charDelay
  | sentencePause
  | midClause
  | thoughtful
  | wordGap
  | lineGapBlank
  | lineGap
deriving DecidableEq

/-- Observable actions of one engine session: keystrokes handed to the
keystroke sink, timed sleeps, status notifications, and the completion
callback hand-off (_on_finished). A character keystroke carries ok := false
when the sink raised inside _type_char (the failure is swallowed there). -/
inductive Action where
  | char (c : Char) (ok : Bool)
  | space
  | enter
  | backspace
  | sleep (k : SleepKind) (d : ℚ)
  | status (msg : String)
  | finished
deriving DecidableEq

/-- Configuration snapshot: the seven getter-closures of the simulator
(get_wpm returns an int, the rest floats, modelled as rationals). -/
structure Config where
  wpm : ℤ
  typo_rate : ℚ
  pause_freq : ℚ
  sentence_pause : ℚ
  paragraph_pause : ℚ
  speed_variation : ℚ
  mistake_correction_delay : ℚ
deriving DecidableEq

/-- Environment of one session: configuration, random stream, asynchronous
stop flag (value of _stop_event.is_set at the k-th check), failure oracle
for _type_char sink calls (cfail) and for the unguarded keyboard.press
calls on space / enter / backspace (kfail). -/
structure Env where
  cfg : Config
  g : Nat → ℚ
  stop : Nat → Bool
  cfail : Nat → Bool
  kfail : Nat → Bool

/-- Threaded counters: next random-draw index, next stop-check index, next
_type_char call index, next raw special-key press index. -/
structure St where
  ri : Nat
  si : Nat
  ci : Nat
  ki : Nat
deriving DecidableEq

/-- Control result of a fragment of _run: continue with updated counters,
returned after calling _on_finished on a stop, or crashed on an unhandled
sink exception. -/
inductive StepRes where
  | cont (s : St)
  | stopped
  | crashed
deriving DecidableEq

/-- Terminal outcome of a session thread. -/
inductive Outcome where
  | completed
  | cancelled
  | aborted
deriving DecidableEq

/-- Sequencing of two fragments: the second runs only if the first
continued; emitted actions accumulate. -/
def seq : List Action × StepRes → (St → List Action × StepRes) → List Action × StepRes
  | (a, StepRes.cont s), f => (a ++ (f s).1, (f s).2)
  | (a, StepRes.stopped), _ => (a, StepRes.stopped)
  | (a, StepRes.crashed), _ => (a, StepRes.crashed)

/-- One draw of random.random(). -/
def draw (env : Env) (s : St) : ℚ × St :=
  (env.g s.ri, { s with ri := s.ri + 1 })

/-- random.uniform a b = a + r * (b - a) for a fresh draw r. -/
def uniformD (env : Env) (a b : ℚ) (s : St) : ℚ × St :=
  let (r, s') := draw env s
  (a + r * (b - a), s')

/-- random.choice over a list of characters: index by flooring r * length
(clamped into range, as Python choice never falls outside). -/
def choiceD (env : Env) (l : List Char) (s : St) : Char × St :=
  let (r, s') := draw env s
  (l.getD (min (Rat.floor (r * l.length)).toNat (l.length - 1)) 'a', s')

/-- The stop-event check at the head of each loop body of _run: when the
flag is set, _on_finished is called and the thread body returns. -/
def stopCheck (env : Env) (s : St) : List Action × StepRes :=
  if env.stop s.si then ([Action.finished], StepRes.stopped)
  else ([], StepRes.cont { s with si := s.si + 1 })

/-- An unguarded keyboard.press / keyboard.release pair on a special key
(space, enter, backspace): no try/except in the source, so a sink failure
propagates as an exception and the thread crashes. -/
def rawKey (env : Env) (a : Action) (s : St) : List Action × StepRes :=
  if env.kfail s.ki then ([], StepRes.crashed)
  else ([a], StepRes.cont { s with ki := s.ki + 1 })

/-- The method _type_char: press and release of a plain character inside
try/except; a sink failure is swallowed and only recorded in the ok flag. -/
def typeChar (env : Env) (ch : Char) (s : St) : List Action × St :=
  ([Action.char ch (!env.cfail s.ci)], { s with ci := s.ci + 1 })

/-- Python str.swapcase on a single character (ASCII). -/
def swapcase (c : Char) : Char :=
  if c.isLower then c.toUpper else if c.isUpper then c.toLower else c

/-- The method _choose_typo_char: with probability 0.15 the case-swapped
correct character, else a uniform vowel / consonant / ASCII letter chosen by
the lowercased class of the correct character. -/
def chooseTypoChar (env : Env) (correct_char : Char) (s : St) : Char × St :=
  let (r, s1) := draw env s
  if r < 15/100 then (swapcase correct_char, s1)
  else if ("aeiou").data.contains correct_char.toLower then
    choiceD env ("aeiou").data s1
  else if ("bcdfghjklmnpqrstvwxyz").data.contains correct_char.toLower then
    choiceD env ("bcdfghjklmnpqrstvwxyz").data s1
  else
    choiceD env ("abcdefghijklmnopqrstuvwxyzABCDEFGHIJKLMNOPQRSTUVWXYZ").data s1

/-- Characters-per-second-derived base inter-character delay of a word
(lines 112-117 of the source): wpm clamped to at least 1, base_cps =
wpm * 5 / 60, scaled by the word speed multiplier m; fallback 0.12 s when
the effective rate is not positive. -/
def effectiveCps (cfg : Config) (m : ℚ) : ℚ :=
  ((max 1 cfg.wpm : ℤ) : ℚ) * 5 / 60 * m

def charDelayOf (cfg : Config) (m : ℚ) : ℚ :=
  if 0 < effectiveCps cfg m then 1 / effectiveCps cfg m else 12/100

/-- The typo branch of the character loop (lines 129-142): wrong character
through _type_char, delay, correction delay, unguarded backspace, delay. -/
def typoBlock (env : Env) (char_delay : ℚ) (ch : Char) (s : St) : List Action × StepRes :=
  let (wrong_char, s1) := chooseTypoChar env ch s
  let (a1, s2) := typeChar env wrong_char s1
  let (u1, s3) := uniformD env (8/10) (16/10) s2
  let correction_delay := env.cfg.mistake_correction_delay
  let (u2, s4) := uniformD env (8/10) (12/10) s3
  seq (a1 ++ [Action.sleep SleepKind.typoDelay (char_delay * u1),
              Action.sleep SleepKind.correctionDelay (correction_delay * u2)],
       StepRes.cont s4) fun s5 =>
  seq (rawKey env Action.backspace s5) fun s6 =>
    let (r3, s7) := draw env s6
    ([Action.sleep SleepKind.backspaceDelay (5/100 + r3 * (12/100))], StepRes.cont s7)

/-- The character loop of a word (lines 120-148): stop check, typo decision
(one draw, compared against the typo rate, effective only on alphabetic
characters), optional typo block, the intended character through
_type_char, and the jittered inter-character sleep clamped at 0.01 s. -/
def typeWordChars (env : Env) (char_delay : ℚ) : List Char → St → List Action × StepRes
  | [], s => ([], StepRes.cont s)
  | ch :: rest, s =>
    seq (stopCheck env s) fun s1 =>
    let (r, s2) := draw env s1
    let make_typo := r < env.cfg.typo_rate
    seq (if make_typo ∧ ch.isAlpha = true then typoBlock env char_delay ch s2
         else ([], StepRes.cont s2)) fun s3 =>
    let (a2, s4) := typeChar env ch s3
    let (j, s5) := uniformD env (-(4/10)) (6/10) s4
    let jitter := j * char_delay
    let sleep_time := max (1/100) (char_delay + jitter)
    seq (a2 ++ [Action.sleep SleepKind.charDelay sleep_time], StepRes.cont s5) fun s6 =>
    typeWordChars env char_delay rest s6

/-- The inter-word boundary block (lines 151-176): stop check, unguarded
space press, then the four-way pause classification on the last character
of the word just typed. -/
def wordBoundary (env : Env) (word : List Char) (s : St) : List Action × StepRes :=
  seq (stopCheck env s) fun s1 =>
  seq (rawKey env Action.space s1) fun s2 =>
    let last_char := word.getLastD ' '
    let pause_prob := env.cfg.pause_freq
    if (".!?").data.contains last_char then
      let sentence_pause := env.cfg.sentence_pause
      let (p, s3) := uniformD env (sentence_pause * (7/10)) (sentence_pause * (14/10)) s2
      ([Action.sleep SleepKind.sentencePause p], StepRes.cont s3)
    else if (",;:").data.contains last_char then
      let (p, s3) := uniformD env (15/100) (45/100) s2
      ([Action.sleep SleepKind.midClause p], StepRes.cont s3)
    else
      let (r, s3) := draw env s2
      if r < pause_prob then
        let (p, s4) := uniformD env (2/10) (9/10) s3
        ([Action.sleep SleepKind.thoughtful p], StepRes.cont s4)
      else
        let (p, s4) := uniformD env (2/100) (12/100) s3
        ([Action.sleep SleepKind.wordGap p], StepRes.cont s4)

/-- The word loop of a line (lines 102-176): stop check, skip of empty
words, per-word speed draw, character loop, and the boundary block for
every word that is not the last of the line. -/
def typeWords (env : Env) : List (List Char) → St → List Action × StepRes
  | [], s => ([], StepRes.cont s)
  | word :: rest, s =>
    seq (stopCheck env s) fun s1 =>
    if word = [] then typeWords env rest s1
    else
      let speed_variation := env.cfg.speed_variation
      let (m, s2) := uniformD env (1 - speed_variation) (1 + speed_variation) s1
      let char_delay := charDelayOf env.cfg m
      seq (typeWordChars env char_delay word s2) fun s3 =>
      seq (if rest = [] then ([], StepRes.cont s3) else wordBoundary env word s3) fun s4 =>
      typeWords env rest s4

/-- Python str.strip at its ASCII meaning: drop whitespace from both ends. -/
def pyStripL (l : List Char) : List Char :=
  ((l.dropWhile Char.isWhitespace).reverse.dropWhile Char.isWhitespace).reverse

/-- Python split on a single-character separator: "".split gives one empty
piece, every separator occurrence opens a new piece. -/
def splitOnChar (sep : Char) : List Char → List (List Char)
  | [] => [[]]
  | c :: cs =>
    let r := splitOnChar sep cs
    if c = sep then [] :: r
    else
      match r with
      | [] => [[c]]
      | w :: ws => (c :: w) :: ws

/-- The line loop of _run (lines 86-191): stop check, paragraph pause when
the previous line is blank and this one is not, split of the line into
space-delimited words (a blank line yields one empty-word placeholder), the
word loop, and - for every line but the last - the unguarded enter press
followed by the line-gap sleep chosen by blankness of the next line. -/
def typeLines (env : Env) : Option (List Char) → List (List Char) → St → List Action × StepRes
  | _, [], s => ([], StepRes.cont s)
  | prev, line :: rest, s =>
    seq (stopCheck env s) fun s1 =>
    let is_paragraph_start :=
      (match prev with
       | some p => pyStripL p == ([] : List Char)
       | none => false) && !(pyStripL line == ([] : List Char))
    seq (if is_paragraph_start = true then
           let paragraph_pause := env.cfg.paragraph_pause
           let (p, s2) := uniformD env (paragraph_pause * (8/10)) (paragraph_pause * (13/10)) s1
           ([Action.sleep SleepKind.paragraphPause p], StepRes.cont s2)
         else ([], StepRes.cont s1)) fun s2 =>
    let words := if pyStripL line ≠ [] then splitOnChar ' ' line else [[]]
    seq (typeWords env words s2) fun s3 =>
    seq (match rest with
         | [] => ([], StepRes.cont s3)
         | next :: _ =>
           seq (stopCheck env s3) fun s4 =>
           seq (rawKey env Action.enter s4) fun s5 =>
             if pyStripL next = [] then
               let (p, s6) := uniformD env (1/10) (25/100) s5
               ([Action.sleep SleepKind.lineGapBlank p], StepRes.cont s6)
             else
               let (p, s6) := uniformD env (5/100) (15/100) s5
               ([Action.sleep SleepKind.lineGap p], StepRes.cont s6)) fun s6 =>
    typeLines env (some line) rest s6

/-- The 5-second countdown of _run (lines 72-78): each tick checks the stop
flag, emits a status update and sleeps one second; a stop during the
countdown calls _on_finished and returns before any keystroke. -/
def countdown (env : Env) : Nat → St → List Action × StepRes
  | 0, s => ([], StepRes.cont s)
  | n + 1, s =>
    seq (stopCheck env s) fun s1 =>
    seq ([Action.status ("Switch to target window! Starting in " ++ toString (n + 1) ++ "s..."),
          Action.sleep SleepKind.countdownTick 1], StepRes.cont s1) fun s2 =>
    countdown env n s2

/-- The initial counter state of a fresh session thread. -/
def st0 : St := { ri := 0, si := 0, ci := 0, ki := 0 }

/-- The thread body _run: countdown, status update and 0.2 s buffer, split
of the text into lines, the line loop, and the final status plus
_on_finished on the completion path.  The outcome records the terminal
state: completed, cancelled (stop flag observed), or aborted (an unhandled
sink exception escaped the thread body, skipping _on_finished). -/
def run (env : Env) (full_text : List Char) : List Action × Outcome :=
  let lines := splitOnChar '\n' full_text
  let body :=
    seq (countdown env 5 st0) fun s1 =>
    seq ([Action.status "Typing...", Action.sleep SleepKind.startBuffer (2/10)],
         StepRes.cont s1) fun s2 =>
    typeLines env none lines s2
  match body with
  | (acts, StepRes.cont _) => (acts ++ [Action.status "Done!", Action.finished], Outcome.completed)
  | (acts, StepRes.stopped) => (acts, Outcome.cancelled)
  | (acts, StepRes.crashed) => (acts, Outcome.aborted)

/-- Engine-instance state for the start method: whether the session thread
exists and is alive (lines 55-61). -/
structure Engine where
  active : Bool
deriving DecidableEq

/-- The start method: a no-op while the worker thread is alive, else it
clears the stop event and spawns the thread (the returned flag records
whether a new session was spawned). -/
def Engine.start (e : Engine) : Engine × Bool :=
  if e.active then (e, false) else ({ active := true }, true)

/-- Two start calls in succession, the second issued while the first
session is still active: the actions emitted are those of the sessions
actually spawned. -/
def startTwice (env : Env) (t1 t2 : List Char) : List Action :=
  let e0 : Engine := { active := false }
  let r1 := e0.start
  let r2 := r1.1.start
  (if r1.2 then (run env t1).1 else []) ++ (if r2.2 then (run env t2).1 else [])

/-- Python str.rstrip at the newline-only call site of start_typing. -/
def rstripNl (l : List Char) : List Char :=
  (l.reverse.dropWhile (fun c => c = '\n')).reverse

/-- The GUI-level start handler start_typing (lines 414-436): the text is
right-stripped of newlines; blank or whitespace-only text is rejected
synchronously with a message box (modelled as the none result) and no
session is created; otherwise the simulator session runs. -/
def startTyping (env : Env) (raw : List Char) : Option (List Action × Outcome) :=
  let full_text := rstripNl raw
  if pyStripL full_text = [] then none
  else some (run env full_text)

/-- Keystroke actions: character, space, enter and backspace emissions. -/
def Action.isKey : Action → Bool
  | Action.char _ _ => true
  | Action.space => true
  | Action.enter => true
  | Action.backspace => true
  | _ => false

/-- Projection of a trace to its keystrokes. -/
def keys (t : List Action) : List Action := t.filter Action.isKey

/-- Number of sleeps of a given site tag in a trace. -/
def sleepKindCount (k : SleepKind) (t : List Action) : Nat :=
  t.countP fun a =>
    match a with
    | Action.sleep k' _ => k' == k
    | _ => false

/-- The last status message of a trace. -/
def lastStatus (t : List Action) : Option String :=
  (t.filterMap fun a =>
    match a with
    | Action.status m => some m
    | _ => none).getLast?

/-- Number of space keystrokes the word loop emits for a word list: one for
every nonempty word that is not the last entry. -/
def expectedSpaces : List (List Char) → Nat
  | [] => 0
  | [_] => 0
  | w :: rest => (if w = [] then 0 else 1) + expectedSpaces rest

/-- Sleeps drawn by the four-way inter-word pause classification. -/
def Action.isBoundarySleep : Action → Bool
  | Action.sleep SleepKind.sentencePause _ => true
  | Action.sleep SleepKind.midClause _ => true
  | Action.sleep SleepKind.thoughtful _ => true
  | Action.sleep SleepKind.wordGap _ => true
  | _ => false

/-- Erasure of the sink-delivery flag of character keystrokes: two traces
equal up to scrubA differ only in which character emissions the sink
silently failed to deliver inside _type_char. -/
def scrubA : Action → Action
  | Action.char c _ => Action.char c true
  | a => a

/-- Fragment results that agree up to character-delivery flags. -/
def ScrubEq (x y : List Action × StepRes) : Prop :=
  x.1.map scrubA = y.1.map scrubA ∧ x.2 = y.2

/-- Environments that agree on everything except possibly the _type_char
failure oracle. -/
def SameButCfail (e1 e2 : Env) : Prop :=
  e1.cfg = e2.cfg ∧ e1.g = e2.g ∧ e1.stop = e2.stop ∧ e1.kfail = e2.kfail

/-- Fixture configuration: 60 wpm, no typos, no random pauses, steady
speed, 1 s sentence pause, 2 s paragraph pause, 0.3 s correction delay. -/
def cfg0 : Config :=
  { wpm := 60, typo_rate := 0, pause_freq := 0, sentence_pause := 1,
    paragraph_pause := 2, speed_variation := 0, mistake_correction_delay := 3/10 }

/-- Fixture environment: cfg0, all random draws 1/2, stop flag never set,
no sink failures. -/
def envA : Env :=
  { cfg := cfg0, g := fun _ => 1/2, stop := fun _ => false,
    cfail := fun _ => false, kfail := fun _ => false }

/-- Fixture environment with certain typos (typo rate 1). -/
def envB : Env := { envA with cfg := { cfg0 with typo_rate := 1 } }

/-- Fixture environment with certain typos and a draw sequence whose fourth
draw (the random.choice of the wrong character) is 0, picking the first
element of the character class. -/
def envT : Env :=
  { envA with
    cfg := { cfg0 with typo_rate := 1 },
    g := fun i => if i = 3 then 0 else 1/2 }

/-- Fixture environment in which every unguarded special-key press of the
keystroke sink raises. -/
def envAb : Env := { envA with kfail := fun _ => true }

/-- Fixture environment with all draws 0. -/
def envW : Env := { envA with g := fun _ => 0 }

/-- Well-formedness of a fragment result with respect to the completion
callback: a continuing fragment has emitted no _on_finished hand-off, a
stopped fragment exactly one, and a crash is impossible. -/
def finOk : List Action → StepRes → Prop
  | acts, StepRes.cont _ => acts.count Action.finished = 0
  | acts, StepRes.stopped => acts.count Action.finished = 1
  | _, StepRes.crashed => False

def NoCrash (x : List Action × StepRes) : Prop := finOk x.1 x.2

/-- Lower bound on the per-character sleeps: every sleep recorded from the
per-character site (the max with 0.01 s at lines 146-148) is at least
0.01 s. -/
def CharSleepLB (l : List Action) : Prop :=
  ∀ v, Action.sleep SleepKind.charDelay v ∈ l → 1/100 ≤ v

end HumanTyper

namespace HumanTyper

theorem seq_noCrash {x : List Action × StepRes} {f : St → List Action × StepRes}
    (hx : NoCrash x) (hf : ∀ s, NoCrash (f s)) : NoCrash (seq x f) := by
  obtain ⟨a, r⟩ := x
  cases r with
  | cont s =>
    have h := hf s
    rcases hfs : f s with ⟨b, r'⟩
    rw [hfs] at h
    cases r' with
    | cont s' =>
      simp only [NoCrash, finOk] at hx h ⊢
      simp [seq, hfs, List.count_append, hx, h]
    | stopped =>
      simp only [NoCrash, finOk] at hx h ⊢
      simp [seq, hfs, List.count_append, hx, h]
    | crashed => exact absurd h id
  | stopped => exact hx
  | crashed => exact hx

theorem stopCheck_noCrash (env : Env) (s : St) : NoCrash (stopCheck env s) := by
  unfold stopCheck
  split <;> simp [NoCrash, finOk]

theorem rawKey_noCrash {env : Env} (hk : env.kfail = fun _ => false)
    {a : Action} (ha : a ≠ Action.finished) (s : St) : NoCrash (rawKey env a s) := by
  unfold rawKey
  rw [hk]
  simp only [if_neg Bool.false_ne_true]
  simp [NoCrash, finOk, List.count_cons, ha]

theorem typoBlock_noCrash {env : Env} (hk : env.kfail = fun _ => false)
    (cd : ℚ) (ch : Char) (s : St) : NoCrash (typoBlock env cd ch s) := by
  unfold typoBlock
  apply seq_noCrash
  · simp [NoCrash, finOk, typeChar, List.count_append, List.count_cons]
  · intro s5
    apply seq_noCrash (rawKey_noCrash hk (by simp) s5)
    intro s6
    simp [NoCrash, finOk, draw, List.count_cons]

theorem typeWordChars_noCrash {env : Env} (hk : env.kfail = fun _ => false)
    (cd : ℚ) : ∀ (chars : List Char) (s : St), NoCrash (typeWordChars env cd chars s) := by
  intro chars
  induction chars with
  | nil => intro s; simp [typeWordChars, NoCrash, finOk]
  | cons ch rest ih =>
    intro s
    unfold typeWordChars
    apply seq_noCrash (stopCheck_noCrash env s)
    intro s1
    apply seq_noCrash
    · split
      · exact typoBlock_noCrash hk cd ch _
      · simp [NoCrash, finOk]
    · intro s3
      apply seq_noCrash
      · simp [NoCrash, finOk, typeChar, List.count_append, List.count_cons]
      · intro s6
        exact ih s6

theorem wordBoundary_noCrash {env : Env} (hk : env.kfail = fun _ => false)
    (word : List Char) (s : St) : NoCrash (wordBoundary env word s) := by
  unfold wordBoundary
  apply seq_noCrash (stopCheck_noCrash env s)
  intro s1
  apply seq_noCrash (rawKey_noCrash hk (by simp) s1)
  intro s2
  simp only [uniformD, draw]
  split
  · simp [NoCrash, finOk, List.count_cons]
  · split
    · simp [NoCrash, finOk, List.count_cons]
    · split <;> simp [NoCrash, finOk, List.count_cons]

theorem typeWords_noCrash {env : Env} (hk : env.kfail = fun _ => false) :
    ∀ (words : List (List Char)) (s : St), NoCrash (typeWords env words s) := by
  intro words
  induction words with
  | nil => intro s; simp [typeWords, NoCrash, finOk]
  | cons word rest ih =>
    intro s
    unfold typeWords
    apply seq_noCrash (stopCheck_noCrash env s)
    intro s1
    split
    · exact ih s1
    · apply seq_noCrash (typeWordChars_noCrash hk _ _ _)
      intro s3
      apply seq_noCrash
      · split
        · simp [NoCrash, finOk]
        · exact wordBoundary_noCrash hk word s3
      · intro s4
        exact ih s4

theorem typeLines_noCrash {env : Env} (hk : env.kfail = fun _ => false) :
    ∀ (ls : List (List Char)) (prev : Option (List Char)) (s : St),
      NoCrash (typeLines env prev ls s) := by
  intro ls
  induction ls with
  | nil => intro prev s; simp [typeLines, NoCrash, finOk]
  | cons line rest ih =>
    intro prev s
    unfold typeLines
    apply seq_noCrash (stopCheck_noCrash env s)
    intro s1
    apply seq_noCrash
    · split <;> simp [NoCrash, finOk, List.count_cons]
    · intro s2
      apply seq_noCrash (typeWords_noCrash hk _ _)
      intro s3
      apply seq_noCrash
      · cases rest with
        | nil => simp [NoCrash, finOk]
        | cons next more =>
          apply seq_noCrash (stopCheck_noCrash env s3)
          intro s4
          apply seq_noCrash (rawKey_noCrash hk (by simp) s4)
          intro s5
          split <;> simp [NoCrash, finOk, List.count_cons]
      · intro s6
        exact ih (some line) s6

theorem countdown_noCrash {env : Env} :
    ∀ (n : Nat) (s : St), NoCrash (countdown env n s) := by
  intro n
  induction n with
  | zero => intro s; simp [countdown, NoCrash, finOk]
  | succ m ih =>
    intro s
    unfold countdown
    apply seq_noCrash (stopCheck_noCrash env s)
    intro s1
    apply seq_noCrash
    · simp [NoCrash, finOk, List.count_cons]
    · intro s2
      exact ih s2

/-- Main lifecycle invariant: when the unguarded special-key sink calls
return normally, every session thread reaches a terminal state and emits
the completion callback exactly once. -/
theorem run_finished {env : Env} (hk : env.kfail = fun _ => false)
    (t : List Char) :
    ((run env t).2 = Outcome.completed ∨ (run env t).2 = Outcome.cancelled) ∧
      (run env t).1.count Action.finished = 1 := by
  have hbody : NoCrash
      (seq (countdown env 5 st0) fun s1 =>
        seq ([Action.status "Typing...", Action.sleep SleepKind.startBuffer (2/10)],
             StepRes.cont s1) fun s2 =>
        typeLines env none (splitOnChar '\n' t) s2) := by
    apply seq_noCrash (countdown_noCrash 5 st0)
    intro s1
    apply seq_noCrash
    · simp [NoCrash, finOk, List.count_cons]
    · intro s2
      exact typeLines_noCrash hk _ _ _
  rcases hb : (seq (countdown env 5 st0) fun s1 =>
        seq ([Action.status "Typing...", Action.sleep SleepKind.startBuffer (2/10)],
             StepRes.cont s1) fun s2 =>
        typeLines env none (splitOnChar '\n' t) s2) with ⟨acts, r⟩
  rw [hb] at hbody
  cases r with
  | cont s =>
    simp only [NoCrash, finOk] at hbody
    simp only [run, hb]
    simp [List.count_append, List.count_cons, hbody]
  | stopped =>
    simp only [NoCrash, finOk] at hbody
    simp only [run, hb]
    simp [hbody]
  | crashed => exact absurd hbody id

theorem seq_scrubEq {x y : List Action × StepRes} {f g : St → List Action × StepRes}
    (hxy : ScrubEq x y) (hfg : ∀ s, ScrubEq (f s) (g s)) :
    ScrubEq (seq x f) (seq y g) := by
  obtain ⟨a, r⟩ := x
  obtain ⟨b, r'⟩ := y
  obtain ⟨h1, h2⟩ := hxy
  simp only at h1 h2
  subst h2
  cases r with
  | cont s =>
    have h := hfg s
    exact ⟨by simp only [seq, List.map_append, h1, h.1], by simp only [seq, h.2]⟩
  | stopped => exact ⟨h1, rfl⟩
  | crashed => exact ⟨h1, rfl⟩

theorem draw_same {e1 e2 : Env} (h : SameButCfail e1 e2) (s : St) :
    draw e1 s = draw e2 s := by
  simp [draw, h.2.1]

theorem uniformD_same {e1 e2 : Env} (h : SameButCfail e1 e2) (a b : ℚ) (s : St) :
    uniformD e1 a b s = uniformD e2 a b s := by
  simp [uniformD, draw_same h]

theorem choiceD_same {e1 e2 : Env} (h : SameButCfail e1 e2) (l : List Char) (s : St) :
    choiceD e1 l s = choiceD e2 l s := by
  simp [choiceD, draw_same h]

theorem chooseTypoChar_same {e1 e2 : Env} (h : SameButCfail e1 e2) (c : Char) (s : St) :
    chooseTypoChar e1 c s = chooseTypoChar e2 c s := by
  simp [chooseTypoChar, draw_same h, choiceD_same h]

theorem stopCheck_same {e1 e2 : Env} (h : SameButCfail e1 e2) (s : St) :
    stopCheck e1 s = stopCheck e2 s := by
  simp [stopCheck, h.2.2.1]

theorem rawKey_same {e1 e2 : Env} (h : SameButCfail e1 e2) (a : Action) (s : St) :
    rawKey e1 a s = rawKey e2 a s := by
  simp [rawKey, h.2.2.2]

theorem typeChar_scrub {e1 e2 : Env} (ch : Char) (s : St) :
    (typeChar e1 ch s).1.map scrubA = (typeChar e2 ch s).1.map scrubA ∧
      (typeChar e1 ch s).2 = (typeChar e2 ch s).2 := by
  simp [typeChar, scrubA]

theorem typoBlock_scrub {e1 e2 : Env} (h : SameButCfail e1 e2) (cd : ℚ) (ch : Char) (s : St) :
    ScrubEq (typoBlock e1 cd ch s) (typoBlock e2 cd ch s) := by
  unfold typoBlock
  rw [chooseTypoChar_same h]
  rcases hc : chooseTypoChar e2 ch s with ⟨w, s1⟩
  dsimp only
  rcases ht1 : typeChar e1 w s1 with ⟨a1, s2⟩
  rcases ht2 : typeChar e2 w s1 with ⟨b1, s2'⟩
  have hts := @typeChar_scrub e1 e2 w s1
  rw [ht1, ht2] at hts
  obtain ⟨hm, hs⟩ := hts
  simp only at hm hs
  subst hs
  try dsimp only
  rw [uniformD_same h]
  rcases hu1 : uniformD e2 (8/10) (16/10) s2 with ⟨u1, s3⟩
  try dsimp only
  rw [h.1]
  try dsimp only
  rw [uniformD_same h]
  rcases hu2 : uniformD e2 (8/10) (12/10) s3 with ⟨u2, s4⟩
  try dsimp only
  apply seq_scrubEq
  · exact ⟨by simp [List.map_append, hm, scrubA], rfl⟩
  · intro s5
    rw [rawKey_same h]
    apply seq_scrubEq ⟨rfl, rfl⟩
    intro s6
    rw [draw_same h]
    exact ⟨rfl, rfl⟩

theorem typeWordChars_scrub {e1 e2 : Env} (h : SameButCfail e1 e2) (cd : ℚ) :
    ∀ (chars : List Char) (s : St),
      ScrubEq (typeWordChars e1 cd chars s) (typeWordChars e2 cd chars s) := by
  intro chars
  induction chars with
  | nil => intro s; exact ⟨rfl, rfl⟩
  | cons ch rest ih =>
    intro s
    unfold typeWordChars
    apply seq_scrubEq ⟨by rw [stopCheck_same h], by rw [stopCheck_same h]⟩
    intro s1
    rw [draw_same h, h.1]
    apply seq_scrubEq
    · split
      · exact typoBlock_scrub h cd ch _
      · exact ⟨rfl, rfl⟩
    · intro s3
      rcases ht1 : typeChar e1 ch s3 with ⟨a2, s4⟩
      rcases ht2 : typeChar e2 ch s3 with ⟨b2, s4'⟩
      have hts := @typeChar_scrub e1 e2 ch s3
      rw [ht1, ht2] at hts
      obtain ⟨hm, hs⟩ := hts
      simp only at hm hs
      subst hs
      try dsimp only
      rw [uniformD_same h]
      rcases hu : uniformD e2 (-(4/10)) (6/10) s4 with ⟨j, s5⟩
      try dsimp only
      apply seq_scrubEq
      · exact ⟨by simp [List.map_append, hm, scrubA], rfl⟩
      · intro s6
        exact ih s6

theorem wordBoundary_same {e1 e2 : Env} (h : SameButCfail e1 e2) (word : List Char) (s : St) :
    wordBoundary e1 word s = wordBoundary e2 word s := by
  unfold wordBoundary
  rw [stopCheck_same h]
  rcases hsc : stopCheck e2 s with ⟨a, r⟩
  cases r with
  | cont s1 =>
    simp only [seq]
    rw [rawKey_same h]
    rcases hrk : rawKey e2 Action.space s1 with ⟨b, r'⟩
    cases r' with
    | cont s2 =>
      simp only [seq]
      rw [h.1, uniformD_same h, uniformD_same h, draw_same h, uniformD_same h, uniformD_same h]
    | stopped => simp [seq]
    | crashed => simp [seq]
  | stopped => simp [seq]
  | crashed => simp [seq]

theorem typeWords_scrub {e1 e2 : Env} (h : SameButCfail e1 e2) :
    ∀ (words : List (List Char)) (s : St),
      ScrubEq (typeWords e1 words s) (typeWords e2 words s) := by
  intro words
  induction words with
  | nil => intro s; exact ⟨rfl, rfl⟩
  | cons word rest ih =>
    intro s
    unfold typeWords
    apply seq_scrubEq ⟨by rw [stopCheck_same h], by rw [stopCheck_same h]⟩
    intro s1
    split
    · exact ih s1
    · rw [h.1]
      try dsimp only
      rw [uniformD_same h]
      rcases hu : uniformD e2 (1 - e2.cfg.speed_variation) (1 + e2.cfg.speed_variation) s1 with ⟨m, s2⟩
      try dsimp only
      apply seq_scrubEq (typeWordChars_scrub h _ _ _)
      intro s3
      apply seq_scrubEq
      · split
        · exact ⟨rfl, rfl⟩
        · rw [wordBoundary_same h word s3]; exact ⟨rfl, rfl⟩
      · intro s4
        exact ih s4

theorem typeLines_scrub {e1 e2 : Env} (h : SameButCfail e1 e2) :
    ∀ (ls : List (List Char)) (prev : Option (List Char)) (s : St),
      ScrubEq (typeLines e1 prev ls s) (typeLines e2 prev ls s) := by
  intro ls
  induction ls with
  | nil => intro prev s; exact ⟨rfl, rfl⟩
  | cons line rest ih =>
    intro prev s
    unfold typeLines
    apply seq_scrubEq ⟨by rw [stopCheck_same h], by rw [stopCheck_same h]⟩
    intro s1
    rw [h.1]
    apply seq_scrubEq
    · split
      · try dsimp only
        rw [uniformD_same h]
        exact ⟨rfl, rfl⟩
      · exact ⟨rfl, rfl⟩
    · intro s2
      apply seq_scrubEq (typeWords_scrub h _ _)
      intro s3
      apply seq_scrubEq
      · cases rest with
        | nil => exact ⟨rfl, rfl⟩
        | cons next more =>
          apply seq_scrubEq ⟨by rw [stopCheck_same h], by rw [stopCheck_same h]⟩
          intro s4
          apply seq_scrubEq ⟨by rw [rawKey_same h], by rw [rawKey_same h]⟩
          intro s5
          split
          · rw [uniformD_same h]; exact ⟨rfl, rfl⟩
          · rw [uniformD_same h]; exact ⟨rfl, rfl⟩
      · intro s6
        exact ih (some line) s6

theorem countdown_same {e1 e2 : Env} (h : SameButCfail e1 e2) :
    ∀ (n : Nat) (s : St), countdown e1 n s = countdown e2 n s := by
  intro n
  induction n with
  | zero => intro s; rfl
  | succ m ih =>
    intro s
    unfold countdown
    rw [stopCheck_same h]
    rcases hsc : stopCheck e2 s with ⟨a, r⟩
    cases r with
    | cont s1 => simp only [seq]; rw [ih]
    | stopped => simp [seq]
    | crashed => simp [seq]

/-- Character-delivery failures inside _type_char are invisible to the rest
of the session: the trace agrees up to delivery flags and the outcome is
identical. -/
theorem run_scrub {e1 e2 : Env} (h : SameButCfail e1 e2) (t : List Char) :
    (run e1 t).1.map scrubA = (run e2 t).1.map scrubA ∧
      (run e1 t).2 = (run e2 t).2 := by
  have hbody : ScrubEq
      (seq (countdown e1 5 st0) fun s1 =>
        seq ([Action.status "Typing...", Action.sleep SleepKind.startBuffer (2/10)],
             StepRes.cont s1) fun s2 =>
        typeLines e1 none (splitOnChar '\n' t) s2)
      (seq (countdown e2 5 st0) fun s1 =>
        seq ([Action.status "Typing...", Action.sleep SleepKind.startBuffer (2/10)],
             StepRes.cont s1) fun s2 =>
        typeLines e2 none (splitOnChar '\n' t) s2) := by
    apply seq_scrubEq ⟨by rw [countdown_same h], by rw [countdown_same h]⟩
    intro s1
    apply seq_scrubEq ⟨rfl, rfl⟩
    intro s2
    exact typeLines_scrub h _ _ _
  rcases hb1 : (seq (countdown e1 5 st0) fun s1 =>
        seq ([Action.status "Typing...", Action.sleep SleepKind.startBuffer (2/10)],
             StepRes.cont s1) fun s2 =>
        typeLines e1 none (splitOnChar '\n' t) s2) with ⟨acts1, r1⟩
  rcases hb2 : (seq (countdown e2 5 st0) fun s1 =>
        seq ([Action.status "Typing...", Action.sleep SleepKind.startBuffer (2/10)],
             StepRes.cont s1) fun s2 =>
        typeLines e2 none (splitOnChar '\n' t) s2) with ⟨acts2, r2⟩
  rw [hb1, hb2] at hbody
  obtain ⟨hm, hr⟩ := hbody
  simp only at hm hr
  subst hr
  cases r1 with
  | cont s =>
    simp only [run, hb1, hb2]
    exact ⟨by simp [List.map_append, hm, scrubA], trivial⟩
  | stopped => simp only [run, hb1, hb2]; exact ⟨hm, trivial⟩
  | crashed => simp only [run, hb1, hb2]; exact ⟨hm, trivial⟩

theorem stopCheck_false {env : Env} (hstop : env.stop = fun _ => false) (s : St) :
    stopCheck env s = ([], StepRes.cont { s with si := s.si + 1 }) := by
  simp [stopCheck, hstop]

theorem keys_nil_of_noKey {l : List Action} (h : ∀ a ∈ l, Action.isKey a = false) :
    keys l = [] := by
  induction l with
  | nil => rfl
  | cons a l ih =>
    simp only [keys, List.filter_cons]
    rw [h a (List.mem_cons_self a l)]
    exact ih fun b hb => h b (List.mem_cons_of_mem a hb)

theorem keys_append (l1 l2 : List Action) : keys (l1 ++ l2) = keys l1 ++ keys l2 := by
  simp [keys]

theorem sleepKindCount_append (k : SleepKind) (l1 l2 : List Action) :
    sleepKindCount k (l1 ++ l2) = sleepKindCount k l1 + sleepKindCount k l2 := by
  simp [sleepKindCount]

theorem countdown_nostop {env : Env} (hstop : env.stop = fun _ => false) :
    ∀ (n : Nat) (s : St), ∃ acts,
      countdown env n s = (acts, StepRes.cont { s with si := s.si + n }) ∧
      ∀ a ∈ acts, (∃ m, a = Action.status m) ∨
        (∃ v, a = Action.sleep SleepKind.countdownTick v) := by
  intro n
  induction n with
  | zero =>
    intro s
    exact ⟨[], by simp [countdown], by simp⟩
  | succ m ih =>
    intro s
    obtain ⟨acts, hacts, hmem⟩ := ih { s with si := s.si + 1 }
    refine ⟨[Action.status ("Switch to target window! Starting in " ++ toString (m + 1) ++ "s..."),
             Action.sleep SleepKind.countdownTick 1] ++ acts, ?_, ?_⟩
    · unfold countdown
      rw [stopCheck_false hstop]
      simp only [seq, hacts]
      have hsi : s.si + 1 + m = s.si + (m + 1) := by omega
      simp [hsi]
    · intro a ha
      rcases List.mem_append.mp ha with h1 | h2
      · simp only [List.mem_cons, List.not_mem_nil, or_false] at h1
        rcases h1 with h1 | h1
        · exact Or.inl ⟨_, h1⟩
        · exact Or.inr ⟨1, h1⟩
      · exact hmem a h2

theorem typeWordChars_noTypo {env : Env} (hstop : env.stop = fun _ => false)
    (hcf : env.cfail = fun _ => false) (hr : env.cfg.typo_rate = 0)
    (hg : ∀ i, 0 ≤ env.g i) (cd : ℚ) :
    ∀ (chars : List Char) (s : St), ∃ acts s',
      typeWordChars env cd chars s = (acts, StepRes.cont s') ∧
      keys acts = chars.map (fun c => Action.char c true) ∧
      ∀ a ∈ acts, (∃ c, a = Action.char c true) ∨
        (∃ v, a = Action.sleep SleepKind.charDelay v) := by
  intro chars
  induction chars with
  | nil =>
    intro s
    exact ⟨[], s, by simp [typeWordChars], by simp [keys], by simp⟩
  | cons ch rest ih =>
    intro s
    have hnotypo : ¬(env.g s.ri < env.cfg.typo_rate ∧ ch.isAlpha = true) := by
      rw [hr]
      intro hcon
      exact absurd hcon.1 (not_lt.mpr (hg _))
    obtain ⟨acts, s', hacts, hkeys, hmem⟩ := ih
      { s with ri := s.ri + 1 + 1, si := s.si + 1, ci := s.ci + 1 }
    refine ⟨[Action.char ch true,
             Action.sleep SleepKind.charDelay
               (max (1/100) (cd + (-(4/10) + env.g (s.ri + 1) * (6/10 - -(4/10))) * cd))] ++ acts,
            s', ?_, ?_, ?_⟩
    · unfold typeWordChars
      rw [stopCheck_false hstop]
      simp only [seq, draw, uniformD, typeChar, hcf]
      try dsimp only
      rw [if_neg hnotypo]
      try dsimp only [seq]
      rw [hacts]
      simp
    · rw [keys_append]
      simp only [List.map_cons]
      rw [hkeys]
      simp [keys, Action.isKey]
    · intro a ha
      rcases List.mem_append.mp ha with h1 | h2
      · simp only [List.mem_cons, List.not_mem_nil, or_false] at h1
        rcases h1 with h1 | h1
        · exact Or.inl ⟨ch, h1⟩
        · exact Or.inr ⟨_, h1⟩
      · exact hmem a h2

theorem typoBlock_eq {env : Env} (hk : env.kfail = fun _ => false)
    (hcf : env.cfail = fun _ => false) (cd : ℚ) (ch : Char) {s s1 : St} {w : Char}
    (hw : chooseTypoChar env ch s = (w, s1)) :
    typoBlock env cd ch s =
      ([Action.char w true,
        Action.sleep SleepKind.typoDelay (cd * (8/10 + env.g s1.ri * (16/10 - 8/10))),
        Action.sleep SleepKind.correctionDelay
          (env.cfg.mistake_correction_delay * (8/10 + env.g (s1.ri + 1) * (12/10 - 8/10))),
        Action.backspace,
        Action.sleep SleepKind.backspaceDelay (5/100 + env.g (s1.ri + 1 + 1) * (12/100))],
       StepRes.cont { s1 with ri := s1.ri + 1 + 1 + 1, ci := s1.ci + 1, ki := s1.ki + 1 }) := by
  unfold typoBlock
  rw [hw]
  simp only [typeChar, hcf, uniformD, draw, seq, rawKey, hk]
  try dsimp only
  simp

theorem typeWordChars_allTypo {env : Env} (hstop : env.stop = fun _ => false)
    (hk : env.kfail = fun _ => false) (hcf : env.cfail = fun _ => false)
    (hr : env.cfg.typo_rate = 1) (hg : ∀ i, 0 ≤ env.g i ∧ env.g i < 1) (cd : ℚ) :
    ∀ (chars : List Char) (s : St), (∀ c ∈ chars, c.isAlpha = true) →
      ∃ (acts : List Action) (s' : St) (ws : List Char),
        typeWordChars env cd chars s = (acts, StepRes.cont s') ∧
        ws.length = chars.length ∧
        keys acts = (((ws.zip chars).map fun p =>
          [Action.char p.1 true, Action.backspace, Action.char p.2 true]).flatten) := by
  intro chars
  induction chars with
  | nil =>
    intro s _
    exact ⟨[], s, [], by simp [typeWordChars], rfl, by simp [keys]⟩
  | cons ch rest ih =>
    intro s ha
    have htypo : env.g s.ri < env.cfg.typo_rate ∧ ch.isAlpha = true := by
      rw [hr]
      exact ⟨(hg s.ri).2, ha ch (List.mem_cons_self ch rest)⟩
    rcases hw : chooseTypoChar env ch { s with ri := s.ri + 1, si := s.si + 1 } with ⟨w, s1⟩
    obtain ⟨acts, s', ws, hacts, hlen, hkeys⟩ := ih
      { s1 with ri := s1.ri + 1 + 1 + 1 + 1, ci := s1.ci + 1 + 1, ki := s1.ki + 1 }
      (fun c hc => ha c (List.mem_cons_of_mem ch hc))
    refine ⟨[Action.char w true,
             Action.sleep SleepKind.typoDelay (cd * (8/10 + env.g s1.ri * (16/10 - 8/10))),
             Action.sleep SleepKind.correctionDelay
               (env.cfg.mistake_correction_delay * (8/10 + env.g (s1.ri + 1) * (12/10 - 8/10))),
             Action.backspace,
             Action.sleep SleepKind.backspaceDelay (5/100 + env.g (s1.ri + 1 + 1) * (12/100)),
             Action.char ch true,
             Action.sleep SleepKind.charDelay
               (max (1/100) (cd + (-(4/10) + env.g (s1.ri + 1 + 1 + 1) * (6/10 - -(4/10))) * cd))] ++ acts,
            s', w :: ws, ?_, ?_, ?_⟩
    · unfold typeWordChars
      rw [stopCheck_false hstop]
      simp only [seq, draw]
      try dsimp only
      rw [if_pos htypo, typoBlock_eq hk hcf cd ch hw]
      simp only [seq, typeChar, hcf, uniformD, draw]
      try dsimp only
      rw [hacts]
      simp
    · simp [hlen]
    · rw [keys_append, hkeys]
      simp [keys, Action.isKey]

theorem rawKey_false {env : Env} (hk : env.kfail = fun _ => false) (a : Action) (s : St) :
    rawKey env a s = ([a], StepRes.cont { s with ki := s.ki + 1 }) := by
  simp [rawKey, hk]

theorem mem_of_mem_dropWhileL {α : Type} (p : α → Bool) :
    ∀ (l : List α) (a : α), a ∈ l.dropWhile p → a ∈ l := by
  intro l
  induction l with
  | nil =>
    intro a ha
    simp [List.dropWhile] at ha
  | cons x xs ih =>
    intro a ha
    rw [List.dropWhile_cons] at ha
    by_cases hx : p x = true
    · rw [if_pos hx] at ha
      exact List.mem_cons_of_mem x (ih a ha)
    · rw [if_neg hx] at ha
      exact ha

/-- C1, counterexample to the claim as stated: the claim quantifies over
every run, but the ENTER delivery at a line end is not wrapped in any
handler.  In envAb every unguarded special-key press raises; typing
"a\nb" then dies at the first line's ENTER: the run ends in neither
Completed nor Cancelled and _on_finished never fires — so a started
session need not reach a terminal state nor invoke the notification. -/
theorem claim_C1_counterexample :
    (run envAb ('a' :: '\n' :: 'b' :: [])).2 ≠ Outcome.completed ∧
      (run envAb ('a' :: '\n' :: 'b' :: [])).2 ≠ Outcome.cancelled ∧
      (run envAb ('a' :: '\n' :: 'b' :: [])).1.count Action.finished = 0 := by
  decide

/-- C1, amended: provided the unguarded special-key sink deliveries (SPACE,
ENTER, BACKSPACE) return normally, once a session has started it reaches a
terminal state (Completed or Cancelled) and the completion notification
_on_finished (the stop_callback hand-off) fires exactly once, on the
completion path and on every cancellation path; the random stream, the
stop-flag schedule and the _type_char failure oracle are universally
quantified.  Without that proviso the claim fails, see the
counterexample. -/
theorem claim_C1_terminal_and_onfinished_once {env : Env}
    (hk : env.kfail = fun _ => false) (t : List Char) :
    ((run env t).2 = Outcome.completed ∨ (run env t).2 = Outcome.cancelled) ∧
      (run env t).1.count Action.finished = 1 :=
  run_finished hk t

theorem claim_C1_witness :
    ((run envA ('a' :: [])).2 = Outcome.completed ∨
        (run envA ('a' :: [])).2 = Outcome.cancelled) ∧
      (run envA ('a' :: [])).1.count Action.finished = 1 :=
  claim_C1_terminal_and_onfinished_once rfl ('a' :: [])

/-- C2, counterexample to the claim as stated: a failing SPACE delivery is
not caught.  In envAb every unguarded special-key press raises; typing
"a b" then aborts at the inter-word space: the run ends in the aborted
state, _on_finished never fires, and only the character a was emitted —
so a single failing keystroke does abort the run. -/
theorem claim_C2_counterexample :
    (run envAb ('a' :: ' ' :: 'b' :: [])).2 = Outcome.aborted ∧
      (run envAb ('a' :: ' ' :: 'b' :: [])).1.count Action.finished = 0 ∧
      keys (run envAb ('a' :: ' ' :: 'b' :: [])).1 = [Action.char 'a' true] := by
  decide

/-- C2, amended: only plain-character emissions go through the guarded
_type_char, and those failures are invisible: the trace agrees up to
delivery flags and the outcome is identical for every _type_char failure
oracle; moreover, when the unguarded special-key deliveries return
normally the run never aborts.  (SPACE, ENTER and BACKSPACE presses are
unguarded; a failure there aborts the run, see the counterexample.) -/
theorem claim_C2_charfail_swallowed (env : Env) (c : Nat → Bool) (t : List Char) :
    ((run { env with cfail := c } t).1.map scrubA = (run env t).1.map scrubA ∧
      (run { env with cfail := c } t).2 = (run env t).2) ∧
    (env.kfail = (fun _ => false) → (run env t).2 ≠ Outcome.aborted) := by
  constructor
  · exact @run_scrub { env with cfail := c } env ⟨rfl, rfl, rfl, rfl⟩ t
  · intro hk
    rcases (run_finished hk t).1 with h | h <;> simp [h]

theorem claim_C2_witness :
    (run envA ('a' :: [])).2 ≠ Outcome.aborted :=
  (claim_C2_charfail_swallowed envA (fun _ => false) ('a' :: [])).2 rfl

/-- C6: starting while a session is active is a no-op; two start calls in
succession while the first run is alive spawn exactly one session and
produce exactly one session's worth of emitted actions. -/
theorem claim_C6_start_idempotent :
    (∀ e : Engine, e.active = true → e.start = (e, false)) ∧
    (∀ (env : Env) (t1 t2 : List Char), startTwice env t1 t2 = (run env t1).1) := by
  constructor
  · intro e he
    simp [Engine.start, he]
  · intro env t1 t2
    simp [startTwice, Engine.start]

theorem claim_C6_witness :
    Engine.start { active := true } = ({ active := true }, false) ∧
      startTwice envA ('a' :: []) ('b' :: []) = (run envA ('a' :: [])).1 :=
  ⟨claim_C6_start_idempotent.1 { active := true } rfl,
   claim_C6_start_idempotent.2 envA ('a' :: []) ('b' :: [])⟩

/-- C7: a blank or whitespace-only text is rejected synchronously by the
start handler: no session is created and no keystroke is ever emitted (the
none result models the message-box return path, not the status channel). -/
theorem claim_C7_blank_rejected (env : Env) (raw : List Char)
    (h : ∀ c ∈ raw, c.isWhitespace = true) : startTyping env raw = none := by
  have h2 : ∀ c ∈ rstripNl raw, c.isWhitespace = true := by
    intro c hc
    apply h
    unfold rstripNl at hc
    rw [List.mem_reverse] at hc
    have := mem_of_mem_dropWhileL (fun c => c = '\n') raw.reverse c hc
    rwa [List.mem_reverse] at this
  have h3 : pyStripL (rstripNl raw) = [] := by
    unfold pyStripL
    rw [List.dropWhile_eq_nil_iff.mpr h2]
    simp
  unfold startTyping
  rw [if_pos h3]

theorem claim_C7_witness : startTyping envA (' ' :: '\n' :: '\t' :: []) = none :=
  claim_C7_blank_rejected envA (' ' :: '\n' :: '\t' :: []) (by decide)

/-- C10: the wrong character drawn for a typo can be the intended character
itself, and the vowel and consonant draws are lowercase even for an
uppercase intended character.  With the draws of envT: for the intended
character a the vowel draw returns a itself; for the intended B the
consonant draw returns lowercase b; and a full run over the text "a"
emits the correct character, a backspace, and the correct character
again. -/
theorem claim_C10_typo_equals_intended :
    (chooseTypoChar envT 'a' { st0 with ri := 2 }).1 = 'a' ∧
    (chooseTypoChar envT 'B' { st0 with ri := 2 }).1 = 'b' ∧
    keys (run envT ('a' :: [])).1 =
      [Action.char 'a' true, Action.backspace, Action.char 'a' true] := by
  decide

theorem charSleepLB_append {l1 l2 : List Action}
    (h1 : CharSleepLB l1) (h2 : CharSleepLB l2) : CharSleepLB (l1 ++ l2) := by
  intro v hv
  rcases List.mem_append.mp hv with h | h
  · exact h1 v h
  · exact h2 v h

theorem charSleepLB_seq {x : List Action × StepRes} {f : St → List Action × StepRes}
    (hx : CharSleepLB x.1) (hf : ∀ s, CharSleepLB (f s).1) : CharSleepLB (seq x f).1 := by
  obtain ⟨a, r⟩ := x
  cases r with
  | cont s =>
    simp only [seq]
    exact charSleepLB_append hx (hf s)
  | stopped => exact hx
  | crashed => exact hx

theorem typoBlock_charSleepLB (env : Env) (cd : ℚ) (ch : Char) (s : St) :
    CharSleepLB (typoBlock env cd ch s).1 := by
  unfold typoBlock
  rcases hw : chooseTypoChar env ch s with ⟨w, s1⟩
  try dsimp only
  simp only [typeChar, uniformD, draw]
  try dsimp only
  apply charSleepLB_seq
  · intro v hv
    simp at hv
  · intro s5
    apply charSleepLB_seq
    · unfold rawKey
      split <;> intro v hv <;> simp at hv
    · intro s6
      intro v hv
      simp at hv

theorem typeWordChars_charSleepLB (env : Env) (cd : ℚ) :
    ∀ (chars : List Char) (s : St), CharSleepLB (typeWordChars env cd chars s).1 := by
  intro chars
  induction chars with
  | nil =>
    intro s v hv
    simp [typeWordChars] at hv
  | cons ch rest ih =>
    intro s
    unfold typeWordChars
    apply charSleepLB_seq
    · unfold stopCheck
      split <;> intro v hv <;> simp at hv
    · intro s1
      simp only [draw, uniformD, typeChar]
      try dsimp only
      apply charSleepLB_seq
      · split
        · exact typoBlock_charSleepLB env cd ch _
        · intro v hv
          simp at hv
      · intro s3
        apply charSleepLB_seq
        · intro v hv
          simp at hv
          rcases hv with hv
          rw [hv]
          exact le_max_left _ _
        · intro s6
          exact ih s6

theorem wordBoundary_charSleepLB (env : Env) (word : List Char) (s : St) :
    CharSleepLB (wordBoundary env word s).1 := by
  unfold wordBoundary
  apply charSleepLB_seq
  · unfold stopCheck
    split <;> intro v hv <;> simp at hv
  · intro s1
    apply charSleepLB_seq
    · unfold rawKey
      split <;> intro v hv <;> simp at hv
    · intro s2
      simp only [uniformD, draw]
      split
      · intro v hv
        simp at hv
      · split
        · intro v hv
          simp at hv
        · split <;> intro v hv <;> simp at hv

theorem typeWords_charSleepLB (env : Env) :
    ∀ (words : List (List Char)) (s : St), CharSleepLB (typeWords env words s).1 := by
  intro words
  induction words with
  | nil =>
    intro s v hv
    simp [typeWords] at hv
  | cons word rest ih =>
    intro s
    unfold typeWords
    apply charSleepLB_seq
    · unfold stopCheck
      split <;> intro v hv <;> simp at hv
    · intro s1
      split
      · exact ih s1
      · simp only [uniformD, draw]
        try dsimp only
        apply charSleepLB_seq
        · exact typeWordChars_charSleepLB env _ word _
        · intro s3
          apply charSleepLB_seq
          · split
            · intro v hv
              simp at hv
            · exact wordBoundary_charSleepLB env word s3
          · intro s4
            exact ih s4

theorem typeLines_charSleepLB (env : Env) :
    ∀ (ls : List (List Char)) (prev : Option (List Char)) (s : St),
      CharSleepLB (typeLines env prev ls s).1 := by
  intro ls
  induction ls with
  | nil =>
    intro prev s v hv
    simp [typeLines] at hv
  | cons line rest ih =>
    intro prev s
    unfold typeLines
    apply charSleepLB_seq
    · unfold stopCheck
      split <;> intro v hv <;> simp at hv
    · intro s1
      apply charSleepLB_seq
      · split
        · simp only [uniformD, draw]
          intro v hv
          simp at hv
        · intro v hv
          simp at hv
      · intro s2
        apply charSleepLB_seq
        · exact typeWords_charSleepLB env _ _
        · intro s3
          apply charSleepLB_seq
          · cases rest with
            | nil =>
              intro v hv
              simp at hv
            | cons next more =>
              apply charSleepLB_seq
              · unfold stopCheck
                split <;> intro v hv <;> simp at hv
              · intro s4
                apply charSleepLB_seq
                · unfold rawKey
                  split <;> intro v hv <;> simp at hv
                · intro s5
                  simp only [uniformD, draw]
                  split <;> intro v hv <;> simp at hv
          · intro s6
            exact ih (some line) s6

theorem countdown_charSleepLB (env : Env) :
    ∀ (n : Nat) (s : St), CharSleepLB (countdown env n s).1 := by
  intro n
  induction n with
  | zero =>
    intro s v hv
    simp [countdown] at hv
  | succ m ih =>
    intro s
    unfold countdown
    apply charSleepLB_seq
    · unfold stopCheck
      split <;> intro v hv <;> simp at hv
    · intro s1
      apply charSleepLB_seq
      · intro v hv
        simp at hv
      · intro s2
        exact ih s2

theorem run_charSleepLB (env : Env) (t : List Char) : CharSleepLB (run env t).1 := by
  unfold run
  try dsimp only
  rcases hb : (seq (countdown env 5 st0) fun s1 =>
        seq ([Action.status "Typing...", Action.sleep SleepKind.startBuffer (2/10)],
             StepRes.cont s1) fun s2 =>
        typeLines env none (splitOnChar '\n' t) s2) with ⟨acts, r⟩
  have hacts : CharSleepLB acts := by
    have h := charSleepLB_seq (x := countdown env 5 st0)
      (f := fun s1 =>
        seq ([Action.status "Typing...", Action.sleep SleepKind.startBuffer (2/10)],
             StepRes.cont s1) fun s2 =>
        typeLines env none (splitOnChar '\n' t) s2)
      (countdown_charSleepLB env 5 st0) ?_
    · rw [hb] at h
      exact h
    · intro s1
      apply charSleepLB_seq
      · intro v hv
        simp at hv
      · intro s2
        exact typeLines_charSleepLB env _ _ _
  cases r with
  | cont s =>
    try dsimp only
    apply charSleepLB_append hacts
    intro v hv
    simp at hv
  | stopped => exact hacts
  | crashed => exact hacts

/-- C5: for every configuration the per-word inter-character delay is
strictly positive, with the 0.12 s fallback exactly when the computed
effective rate is not positive, and every per-character sleep recorded in
any run is at least 0.01 s. -/
theorem claim_C5_char_delay_positive :
    (∀ (cfg : Config) (m : ℚ), 0 < charDelayOf cfg m) ∧
    (∀ (cfg : Config) (m : ℚ), ¬ 0 < effectiveCps cfg m → charDelayOf cfg m = 12/100) ∧
    (∀ (env : Env) (t : List Char) (v : ℚ),
       Action.sleep SleepKind.charDelay v ∈ (run env t).1 → 1/100 ≤ v) := by
  refine ⟨?_, ?_, ?_⟩
  · intro cfg m
    unfold charDelayOf
    split
    · next h => exact div_pos one_pos h
    · norm_num
  · intro cfg m h
    unfold charDelayOf
    rw [if_neg h]
  · intro env t v hv
    exact run_charSleepLB env t v hv

theorem claim_C5_witness :
    charDelayOf cfg0 (-1) = 12/100 ∧ ((1:ℚ)/100 ≤ 3/25) :=
  ⟨claim_C5_char_delay_positive.2.1 cfg0 (-1) (by decide),
   claim_C5_char_delay_positive.2.2 envW ('a' :: []) (3/25) (by decide)⟩

theorem mem_seq {x : List Action × StepRes} {f : St → List Action × StepRes} {a : Action}
    (ha : a ∈ (seq x f).1) : a ∈ x.1 ∨ ∃ s, x.2 = StepRes.cont s ∧ a ∈ (f s).1 := by
  obtain ⟨l, r⟩ := x
  cases r with
  | cont s =>
    simp only [seq, List.mem_append] at ha
    rcases ha with h | h
    · exact Or.inl h
    · exact Or.inr ⟨s, rfl, h⟩
  | stopped => exact Or.inl ha
  | crashed => exact Or.inl ha

theorem typoBlock_mem (env : Env) (cd : ℚ) (ch : Char) (s : St) :
    ∀ a ∈ (typoBlock env cd ch s).1,
      (∃ c b, a = Action.char c b) ∨ a = Action.backspace ∨ a = Action.finished ∨
      (∃ k v, a = Action.sleep k v ∧
        (k = SleepKind.typoDelay ∨ k = SleepKind.correctionDelay ∨
         k = SleepKind.backspaceDelay)) := by
  unfold typoBlock
  rcases hw : chooseTypoChar env ch s with ⟨w, s1⟩
  try dsimp only
  intro a ha
  rcases mem_seq ha with h | ⟨s5, _, ha⟩
  · simp only [typeChar, uniformD, draw] at h
    try dsimp only at h
    simp only [List.mem_append, List.mem_cons, List.not_mem_nil, or_false, or_assoc] at h
    rcases h with h | h | h <;> subst h <;> simp
  · rcases mem_seq ha with h | ⟨s6, _, ha⟩
    · unfold rawKey at h
      split at h
      · simp at h
      · simp only [List.mem_singleton] at h
        subst h
        simp
    · simp only [draw] at ha
      try dsimp only at ha
      simp only [List.mem_singleton] at ha
      subst ha
      simp

theorem typeWordChars_mem (env : Env) (cd : ℚ) :
    ∀ (chars : List Char) (s : St), ∀ a ∈ (typeWordChars env cd chars s).1,
      (∃ c b, a = Action.char c b) ∨ a = Action.backspace ∨ a = Action.finished ∨
      (∃ k v, a = Action.sleep k v ∧
        (k = SleepKind.typoDelay ∨ k = SleepKind.correctionDelay ∨
         k = SleepKind.backspaceDelay ∨ k = SleepKind.charDelay)) := by
  intro chars
  induction chars with
  | nil =>
    intro s a ha
    simp [typeWordChars] at ha
  | cons ch rest ih =>
    intro s a ha
    unfold typeWordChars at ha
    rcases mem_seq ha with h | ⟨s1, _, ha⟩
    · unfold stopCheck at h
      split at h
      · simp only [List.mem_singleton] at h
        subst h
        simp
      · simp at h
    · simp only [draw] at ha
      try dsimp only at ha
      rcases mem_seq ha with h | ⟨s3, _, ha⟩
      · split at h
        · rcases typoBlock_mem env cd ch _ a h with h | h | h | ⟨k, v, hkv, hk⟩
          · exact Or.inl h
          · exact Or.inr (Or.inl h)
          · exact Or.inr (Or.inr (Or.inl h))
          · refine Or.inr (Or.inr (Or.inr ⟨k, v, hkv, ?_⟩))
            rcases hk with h | h | h
            · exact Or.inl h
            · exact Or.inr (Or.inl h)
            · exact Or.inr (Or.inr (Or.inl h))
        · simp at h
      · rcases mem_seq ha with h | ⟨s6, _, ha⟩
        · simp only [typeChar, uniformD, draw] at h
          try dsimp only at h
          simp only [List.mem_append, List.mem_cons, List.not_mem_nil, or_false] at h
          rcases h with h | h <;> subst h <;> simp
        · exact ih _ a ha

/-- C8: at every inter-word boundary a space keystroke is emitted, then
exactly one of the four pause branches fires, classified in priority order
on the last character of the word just typed, each drawing from the stated
uniform distribution; and the character loop itself never emits a space,
so a single-word line produces no space at all.  The stop flag is clear
and the special-key sink does not fail at the boundary. -/
theorem claim_C8_boundary_classification {env : Env}
    (hstop : env.stop = fun _ => false) (hk : env.kfail = fun _ => false)
    (word : List Char) (s : St) :
    (∃ k v s',
      wordBoundary env word s = ([Action.space, Action.sleep k v], StepRes.cont s') ∧
      (k = SleepKind.sentencePause ∨ k = SleepKind.midClause ∨
       k = SleepKind.thoughtful ∨ k = SleepKind.wordGap) ∧
      (k = SleepKind.sentencePause ↔ (".!?").data.contains (word.getLastD ' ') = true) ∧
      (k = SleepKind.midClause ↔ ((".!?").data.contains (word.getLastD ' ') = false ∧
        (",;:").data.contains (word.getLastD ' ') = true)) ∧
      (k = SleepKind.thoughtful ↔ ((".!?").data.contains (word.getLastD ' ') = false ∧
        (",;:").data.contains (word.getLastD ' ') = false ∧
        env.g s.ri < env.cfg.pause_freq)) ∧
      (k = SleepKind.wordGap ↔ ((".!?").data.contains (word.getLastD ' ') = false ∧
        (",;:").data.contains (word.getLastD ' ') = false ∧
        ¬ env.g s.ri < env.cfg.pause_freq)) ∧
      (k = SleepKind.sentencePause →
        v = env.cfg.sentence_pause * (7/10) +
            env.g s.ri * (env.cfg.sentence_pause * (14/10) - env.cfg.sentence_pause * (7/10))) ∧
      (k = SleepKind.midClause → v = 15/100 + env.g s.ri * (45/100 - 15/100)) ∧
      (k = SleepKind.thoughtful → v = 2/10 + env.g (s.ri + 1) * (9/10 - 2/10)) ∧
      (k = SleepKind.wordGap → v = 2/100 + env.g (s.ri + 1) * (12/100 - 2/100))) ∧
    (∀ (w : List Char) (s1 : St), Action.space ∉ (typeWords env (w :: []) s1).1) := by
  constructor
  · unfold wordBoundary
    rw [stopCheck_false hstop]
    simp only [seq, rawKey_false hk]
    try dsimp only
    by_cases h1 : (".!?").data.contains (word.getLastD ' ') = true
    · rw [if_pos h1]
      simp only [uniformD, draw]
      refine ⟨SleepKind.sentencePause, _, _, rfl, by simp,
        iff_of_true rfl h1,
        iff_of_false (by decide) (fun hcon => by rw [h1] at hcon; exact absurd hcon.1 (by decide)),
        iff_of_false (by decide) (fun hcon => by rw [h1] at hcon; exact absurd hcon.1 (by decide)),
        iff_of_false (by decide) (fun hcon => by rw [h1] at hcon; exact absurd hcon.1 (by decide)),
        fun _ => rfl,
        fun hcon => absurd hcon (by decide),
        fun hcon => absurd hcon (by decide),
        fun hcon => absurd hcon (by decide)⟩
    · rw [if_neg h1]
      rw [Bool.not_eq_true] at h1
      by_cases h2 : (",;:").data.contains (word.getLastD ' ') = true
      · rw [if_pos h2]
        simp only [uniformD, draw]
        refine ⟨SleepKind.midClause, _, _, rfl, by simp,
          iff_of_false (by decide) (fun hcon => by rw [h1] at hcon; exact absurd hcon (by decide)),
          iff_of_true rfl ⟨h1, h2⟩,
          iff_of_false (by decide) (fun hcon => by rw [h2] at hcon; exact absurd hcon.2.1 (by decide)),
          iff_of_false (by decide) (fun hcon => by rw [h2] at hcon; exact absurd hcon.2.1 (by decide)),
          fun hcon => absurd hcon (by decide),
          fun _ => rfl,
          fun hcon => absurd hcon (by decide),
          fun hcon => absurd hcon (by decide)⟩
      · rw [if_neg h2]
        rw [Bool.not_eq_true] at h2
        simp only [uniformD, draw]
        try dsimp only
        by_cases h3 : env.g s.ri < env.cfg.pause_freq
        · rw [if_pos h3]
          refine ⟨SleepKind.thoughtful, _, _, rfl, by simp,
            iff_of_false (by decide) (fun hcon => by rw [h1] at hcon; exact absurd hcon (by decide)),
            iff_of_false (by decide) (fun hcon => by rw [h2] at hcon; exact absurd hcon.2 (by decide)),
            iff_of_true rfl ⟨h1, h2, h3⟩,
            iff_of_false (by decide) (fun hcon => hcon.2.2 h3),
            fun hcon => absurd hcon (by decide),
            fun hcon => absurd hcon (by decide),
            fun _ => rfl,
            fun hcon => absurd hcon (by decide)⟩
        · rw [if_neg h3]
          refine ⟨SleepKind.wordGap, _, _, rfl, by simp,
            iff_of_false (by decide) (fun hcon => by rw [h1] at hcon; exact absurd hcon (by decide)),
            iff_of_false (by decide) (fun hcon => by rw [h2] at hcon; exact absurd hcon.2 (by decide)),
            iff_of_false (by decide) (fun hcon => absurd hcon.2.2 h3),
            iff_of_true rfl ⟨h1, h2, h3⟩,
            fun hcon => absurd hcon (by decide),
            fun hcon => absurd hcon (by decide),
            fun hcon => absurd hcon (by decide),
            fun _ => rfl⟩
  · intro w s1 hsp
    unfold typeWords at hsp
    rcases mem_seq hsp with h | ⟨s2, _, hsp⟩
    · unfold stopCheck at h
      split at h <;> simp at h
    · split at hsp
      · simp [typeWords] at hsp
      · simp only [uniformD, draw] at hsp
        try dsimp only at hsp
        rcases mem_seq hsp with h | ⟨s3, _, hsp⟩
        · rcases typeWordChars_mem env _ w _ _ h with h | h | h | ⟨k, v, hkv, hk⟩ <;>
            simp_all
        · rcases mem_seq hsp with h | ⟨s4, _, hsp⟩
          · simp at h
          · simp [typeWords] at hsp

theorem claim_C8_witness :
    ∃ k v s',
      wordBoundary envA ('a' :: []) st0 = ([Action.space, Action.sleep k v], StepRes.cont s') ∧
      (k = SleepKind.sentencePause ∨ k = SleepKind.midClause ∨
       k = SleepKind.thoughtful ∨ k = SleepKind.wordGap) ∧
      (k = SleepKind.sentencePause ↔ (".!?").data.contains (('a' :: []).getLastD ' ') = true) ∧
      (k = SleepKind.midClause ↔ ((".!?").data.contains (('a' :: []).getLastD ' ') = false ∧
        (",;:").data.contains (('a' :: []).getLastD ' ') = true)) ∧
      (k = SleepKind.thoughtful ↔ ((".!?").data.contains (('a' :: []).getLastD ' ') = false ∧
        (",;:").data.contains (('a' :: []).getLastD ' ') = false ∧
        envA.g st0.ri < envA.cfg.pause_freq)) ∧
      (k = SleepKind.wordGap ↔ ((".!?").data.contains (('a' :: []).getLastD ' ') = false ∧
        (",;:").data.contains (('a' :: []).getLastD ' ') = false ∧
        ¬ envA.g st0.ri < envA.cfg.pause_freq)) ∧
      (k = SleepKind.sentencePause →
        v = envA.cfg.sentence_pause * (7/10) +
            envA.g st0.ri * (envA.cfg.sentence_pause * (14/10) - envA.cfg.sentence_pause * (7/10))) ∧
      (k = SleepKind.midClause → v = 15/100 + envA.g st0.ri * (45/100 - 15/100)) ∧
      (k = SleepKind.thoughtful → v = 2/10 + envA.g (st0.ri + 1) * (9/10 - 2/10)) ∧
      (k = SleepKind.wordGap → v = 2/100 + envA.g (st0.ri + 1) * (12/100 - 2/100)) :=
  (claim_C8_boundary_classification rfl rfl ('a' :: []) st0).1

theorem res_seq_of {x : List Action × StepRes} {f : St → List Action × StepRes}
    (hx : ∃ s1, x.2 = StepRes.cont s1)
    (hf : ∀ s1, ∃ s2, (f s1).2 = StepRes.cont s2) :
    ∃ s2, (seq x f).2 = StepRes.cont s2 := by
  obtain ⟨s1, h⟩ := hx
  obtain ⟨l, r⟩ := x
  simp only at h
  subst h
  simpa [seq] using hf s1

theorem countP_seq_cont (p : Action → Bool) {x : List Action × StepRes}
    {s1 : St} (f : St → List Action × StepRes) (h : x.2 = StepRes.cont s1) :
    (seq x f).1.countP p = x.1.countP p + ((f s1).1).countP p := by
  obtain ⟨l, r⟩ := x
  simp only at h
  subst h
  simp [seq, List.countP_append]

theorem typoBlock_res {env : Env} (hk : env.kfail = fun _ => false)
    (cd : ℚ) (ch : Char) (s : St) :
    ∃ s', (typoBlock env cd ch s).2 = StepRes.cont s' := by
  unfold typoBlock
  rcases hw : chooseTypoChar env ch s with ⟨w, s1⟩
  try dsimp only
  refine res_seq_of ⟨_, rfl⟩ ?_
  intro s5
  refine res_seq_of ⟨_, by rw [rawKey_false hk]⟩ ?_
  intro s6
  exact ⟨_, rfl⟩

theorem typeWordChars_res {env : Env} (hstop : env.stop = fun _ => false)
    (hk : env.kfail = fun _ => false) (cd : ℚ) :
    ∀ (chars : List Char) (s : St), ∃ s', (typeWordChars env cd chars s).2 = StepRes.cont s' := by
  intro chars
  induction chars with
  | nil =>
    intro s
    exact ⟨s, by simp [typeWordChars]⟩
  | cons ch rest ih =>
    intro s
    unfold typeWordChars
    refine res_seq_of ⟨_, by rw [stopCheck_false hstop]⟩ ?_
    intro s1
    try dsimp only
    split
    · refine res_seq_of (typoBlock_res hk cd ch _) ?_
      intro s3
      refine res_seq_of ⟨_, rfl⟩ ?_
      intro s6
      exact ih s6
    · refine res_seq_of ⟨_, rfl⟩ ?_
      intro s3
      refine res_seq_of ⟨_, rfl⟩ ?_
      intro s6
      exact ih s6

theorem wordBoundary_shape {env : Env} (hstop : env.stop = fun _ => false)
    (hk : env.kfail = fun _ => false) (word : List Char) (s : St) :
    ∃ k v s', wordBoundary env word s = ([Action.space, Action.sleep k v], StepRes.cont s') ∧
      Action.isBoundarySleep (Action.sleep k v) = true := by
  unfold wordBoundary
  rw [stopCheck_false hstop]
  simp only [seq, rawKey_false hk, uniformD, draw]
  try dsimp only
  split
  · exact ⟨_, _, _, rfl, rfl⟩
  · split
    · exact ⟨_, _, _, rfl, rfl⟩
    · split
      · exact ⟨_, _, _, rfl, rfl⟩
      · exact ⟨_, _, _, rfl, rfl⟩

theorem typeWordChars_counts0 (env : Env) (cd : ℚ) (chars : List Char) (s : St) :
    (typeWordChars env cd chars s).1.countP (fun a => a == Action.space) = 0 ∧
    (typeWordChars env cd chars s).1.countP (fun a => Action.isBoundarySleep a) = 0 := by
  constructor
  · rw [List.countP_eq_zero]
    intro a hmem
    rcases typeWordChars_mem env cd chars s a hmem with ⟨c, b, h⟩ | h | h | ⟨k, v, hkv, hks⟩ <;>
      subst_vars <;> simp
  · rw [List.countP_eq_zero]
    intro a hmem
    rcases typeWordChars_mem env cd chars s a hmem with ⟨c, b, h⟩ | h | h | ⟨k, v, hkv, hks⟩
    · subst h; simp [Action.isBoundarySleep]
    · subst h; simp [Action.isBoundarySleep]
    · subst h; simp [Action.isBoundarySleep]
    · subst hkv
      rcases hks with h | h | h | h <;> subst h <;> simp [Action.isBoundarySleep]

theorem typeWords_counts {env : Env} (hstop : env.stop = fun _ => false)
    (hk : env.kfail = fun _ => false) :
    ∀ (words : List (List Char)) (s : St),
      (∃ s', (typeWords env words s).2 = StepRes.cont s') ∧
      (typeWords env words s).1.countP (fun a => a == Action.space) = expectedSpaces words ∧
      (typeWords env words s).1.countP (fun a => Action.isBoundarySleep a) =
        expectedSpaces words := by
  intro words
  induction words with
  | nil =>
    intro s
    refine ⟨⟨s, by simp [typeWords]⟩, ?_, ?_⟩ <;> simp [typeWords, expectedSpaces]
  | cons word rest ih =>
    intro s
    unfold typeWords
    refine ⟨?_, ?_, ?_⟩
    · refine res_seq_of ⟨_, by rw [stopCheck_false hstop]⟩ ?_
      intro s1
      try dsimp only
      split
      · exact (ih s1).1
      · refine res_seq_of (typeWordChars_res hstop hk _ word _) ?_
        intro s3
        refine res_seq_of ?_ ?_
        · split
          · exact ⟨s3, rfl⟩
          · obtain ⟨k, v, s', heq, _⟩ := wordBoundary_shape hstop hk word s3
            exact ⟨s', by rw [heq]⟩
        · intro s4
          exact (ih s4).1
    · rw [stopCheck_false hstop, countP_seq_cont _ _ rfl]
      simp only [List.countP_nil, Nat.zero_add]
      try dsimp only
      split
      · next hw =>
        rw [(ih _).2.1]
        cases rest <;> simp [expectedSpaces, hw]
      · next hw =>
        simp only [uniformD, draw]
        try dsimp only
        obtain ⟨s3, h3⟩ := typeWordChars_res hstop hk
          (charDelayOf env.cfg (1 - env.cfg.speed_variation +
            env.g s.ri * (1 + env.cfg.speed_variation - (1 - env.cfg.speed_variation))))
          word { s with ri := s.ri + 1, si := s.si + 1 }
        rw [countP_seq_cont _ _ h3, (typeWordChars_counts0 env _ word _).1]
        try dsimp only
        cases rest with
        | nil =>
          rw [if_pos rfl]
          rw [countP_seq_cont _ _ rfl]
          rw [(ih _).2.1]
          simp [expectedSpaces]
        | cons r rs =>
          rw [if_neg (by simp)]
          obtain ⟨k, v, s', heq, hb⟩ := wordBoundary_shape hstop hk word s3
          rw [countP_seq_cont _ _ (by rw [heq])]
          rw [heq]
          try dsimp only
          rw [(ih _).2.1]
          simp [expectedSpaces, List.countP_cons, hw]
    · rw [stopCheck_false hstop, countP_seq_cont _ _ rfl]
      simp only [List.countP_nil, Nat.zero_add]
      try dsimp only
      split
      · next hw =>
        rw [(ih _).2.2]
        cases rest <;> simp [expectedSpaces, hw]
      · next hw =>
        simp only [uniformD, draw]
        try dsimp only
        obtain ⟨s3, h3⟩ := typeWordChars_res hstop hk
          (charDelayOf env.cfg (1 - env.cfg.speed_variation +
            env.g s.ri * (1 + env.cfg.speed_variation - (1 - env.cfg.speed_variation))))
          word { s with ri := s.ri + 1, si := s.si + 1 }
        rw [countP_seq_cont _ _ h3, (typeWordChars_counts0 env _ word _).2]
        try dsimp only
        cases rest with
        | nil =>
          rw [if_pos rfl]
          rw [countP_seq_cont _ _ rfl]
          rw [(ih _).2.2]
          simp [expectedSpaces]
        | cons r rs =>
          rw [if_neg (by simp)]
          obtain ⟨k, v, s', heq, hb⟩ := wordBoundary_shape hstop hk word s3
          rw [countP_seq_cont _ _ (by rw [heq])]
          rw [heq]
          try dsimp only
          rw [(ih _).2.2]
          simp only [List.countP_cons, List.countP_nil, hb]
          simp [expectedSpaces, Action.isBoundarySleep, hw]

theorem claim_C9_empty_words_skipped {env : Env}
    (hstop : env.stop = fun _ => false) (hk : env.kfail = fun _ => false) :
    (∀ (rest : List (List Char)) (s : St),
      typeWords env (([] : List Char) :: rest) s =
        typeWords env rest { s with si := s.si + 1 }) ∧
    (∀ (words : List (List Char)) (s : St),
      (typeWords env words s).1.countP (fun a => a == Action.space) = expectedSpaces words ∧
      (typeWords env words s).1.countP (fun a => Action.isBoundarySleep a) =
        expectedSpaces words) := by
  constructor
  · intro rest s
    have h : typeWords env (([] : List Char) :: rest) s =
        seq (stopCheck env s) fun s1 => typeWords env rest s1 := rfl
    rw [h, stopCheck_false hstop]
    rfl
  · intro words s
    exact ⟨(typeWords_counts hstop hk words s).2.1, (typeWords_counts hstop hk words s).2.2⟩

theorem fst_seq_cont {x : List Action × StepRes} {s1 : St} (f : St → List Action × StepRes)
    (h : x.2 = StepRes.cont s1) : (seq x f).1 = x.1 ++ (f s1).1 := by
  obtain ⟨l, r⟩ := x
  simp only at h
  subst h
  simp [seq]

theorem typeWords_allTypo_single {env : Env} (hstop : env.stop = fun _ => false)
    (hk : env.kfail = fun _ => false) (hcf : env.cfail = fun _ => false)
    (hr : env.cfg.typo_rate = 1) (hg : ∀ i, 0 ≤ env.g i ∧ env.g i < 1)
    (word : List Char) (hw : word ≠ []) (halpha : ∀ c ∈ word, c.isAlpha = true) :
    ∀ s, ∃ (acts : List Action) (s' : St) (ws : List Char),
      typeWords env (word :: []) s = (acts, StepRes.cont s') ∧
      ws.length = word.length ∧
      keys acts = (((ws.zip word).map fun p =>
        [Action.char p.1 true, Action.backspace, Action.char p.2 true]).flatten) := by
  intro s
  obtain ⟨acts, s', ws, h1, h2, h3⟩ := typeWordChars_allTypo hstop hk hcf hr hg
    (charDelayOf env.cfg (1 - env.cfg.speed_variation +
      env.g s.ri * (1 + env.cfg.speed_variation - (1 - env.cfg.speed_variation))))
    word { s with ri := s.ri + 1, si := s.si + 1 } halpha
  refine ⟨acts, s', ws, ?_, h2, h3⟩
  unfold typeWords
  rw [stopCheck_false hstop]
  simp only [seq]
  try dsimp only
  rw [if_neg hw]
  simp only [uniformD, draw]
  try dsimp only
  rw [h1]
  simp only [seq]
  try dsimp only
  simp [typeWords]

theorem typeLines_one_line_allTypo {env : Env} (hstop : env.stop = fun _ => false)
    (hk : env.kfail = fun _ => false) (hcf : env.cfail = fun _ => false)
    (hr : env.cfg.typo_rate = 1) (hg : ∀ i, 0 ≤ env.g i ∧ env.g i < 1)
    (line : List Char) (hw : line ≠ []) (halpha : ∀ c ∈ line, c.isAlpha = true)
    (hsp : splitOnChar ' ' line = line :: []) (hnb : pyStripL line ≠ []) :
    ∀ s, ∃ (acts : List Action) (s' : St) (ws : List Char),
      typeLines env none (line :: []) s = (acts, StepRes.cont s') ∧
      ws.length = line.length ∧
      keys acts = (((ws.zip line).map fun p =>
        [Action.char p.1 true, Action.backspace, Action.char p.2 true]).flatten) := by
  intro s
  obtain ⟨acts, s', ws, h1, h2, h3⟩ := typeWords_allTypo_single hstop hk hcf hr hg
    line hw halpha { s with si := s.si + 1 }
  refine ⟨acts, s', ws, ?_, h2, h3⟩
  unfold typeLines
  rw [stopCheck_false hstop]
  simp only [seq]
  try dsimp only
  rw [if_neg (by simp)]
  simp only [seq]
  try dsimp only
  rw [if_pos hnb, hsp, h1]
  simp only [seq]
  try dsimp only
  simp [typeLines]

theorem run_trace_of_lines {env : Env} {t : List Char}
    {cacts : List Action} {s5 : St} (hcd : countdown env 5 st0 = (cacts, StepRes.cont s5))
    {lacts : List Action} {sL : St}
    (hL : typeLines env none (splitOnChar '\n' t) s5 = (lacts, StepRes.cont sL)) :
    run env t =
      (cacts ++ [Action.status "Typing...", Action.sleep SleepKind.startBuffer (2/10)] ++
        lacts ++ [Action.status "Done!", Action.finished], Outcome.completed) := by
  simp only [run]
  rw [hcd]
  simp only [seq]
  try dsimp only
  rw [hL]
  simp

/-- C3: typing "cat" with typo rate 1 (every character alphabetic) emits,
for each of the three letters, one wrong-letter keystroke, a backspace,
then the correct letter: nine keystrokes in all for the one word, three of
them backspaces and six of them character keystrokes.  Holds for every
random stream with draws in the unit interval, with the stop flag clear
and a failure-free sink. -/
theorem claim_C3_cat_typo_cycles {env : Env} (hstop : env.stop = fun _ => false)
    (hk : env.kfail = fun _ => false) (hcf : env.cfail = fun _ => false)
    (hr : env.cfg.typo_rate = 1) (hg : ∀ i, 0 ≤ env.g i ∧ env.g i < 1) :
    ∃ w1 w2 w3 : Char,
      keys (run env ('c' :: 'a' :: 't' :: [])).1 =
        [Action.char w1 true, Action.backspace, Action.char 'c' true,
         Action.char w2 true, Action.backspace, Action.char 'a' true,
         Action.char w3 true, Action.backspace, Action.char 't' true] ∧
      (keys (run env ('c' :: 'a' :: 't' :: [])).1).length = 9 ∧
      (run env ('c' :: 'a' :: 't' :: [])).1.count Action.backspace = 3 := by
  obtain ⟨cacts, hcd, hcmem⟩ := countdown_nostop hstop 5 st0
  have hck : keys cacts = [] := by
    apply keys_nil_of_noKey
    intro a ha
    rcases hcmem a ha with ⟨m, h⟩ | ⟨v, h⟩ <;> subst h <;> rfl
  obtain ⟨lacts, sL, ws, hL, hlen, hLkeys⟩ := typeLines_one_line_allTypo hstop hk hcf hr hg
    ('c' :: 'a' :: 't' :: []) (by decide) (by decide) (by decide) (by decide)
    { st0 with si := st0.si + 5 }
  have hrun := run_trace_of_lines hcd (t := ('c' :: 'a' :: 't' :: [])) hL
  obtain ⟨w1, w2, w3, hws⟩ := List.length_eq_three.mp hlen
  subst hws
  have hkeys : keys (run env ('c' :: 'a' :: 't' :: [])).1 =
      [Action.char w1 true, Action.backspace, Action.char 'c' true,
       Action.char w2 true, Action.backspace, Action.char 'a' true,
       Action.char w3 true, Action.backspace, Action.char 't' true] := by
    rw [hrun]
    try dsimp only
    rw [keys_append, keys_append, keys_append, hck, hLkeys]
    simp [keys, Action.isKey]
  refine ⟨w1, w2, w3, hkeys, by rw [hkeys]; rfl, ?_⟩
  rw [← List.count_filter (p := Action.isKey) (by rfl)]
  show (keys (run env ('c' :: 'a' :: 't' :: [])).1).count Action.backspace = 3
  rw [hkeys]
  simp [List.count_cons]

theorem claim_C3_witness :
    ∃ w1 w2 w3 : Char,
      keys (run envB ('c' :: 'a' :: 't' :: [])).1 =
        [Action.char w1 true, Action.backspace, Action.char 'c' true,
         Action.char w2 true, Action.backspace, Action.char 'a' true,
         Action.char w3 true, Action.backspace, Action.char 't' true] ∧
      (keys (run envB ('c' :: 'a' :: 't' :: [])).1).length = 9 ∧
      (run envB ('c' :: 'a' :: 't' :: [])).1.count Action.backspace = 3 :=
  claim_C3_cat_typo_cycles rfl rfl rfl rfl
    (fun i => ⟨by norm_num [envB, envA], by norm_num [envB, envA]⟩)

theorem typeWords_noTypo_single {env : Env} (hstop : env.stop = fun _ => false)
    (hcf : env.cfail = fun _ => false) (hr : env.cfg.typo_rate = 0)
    (hg : ∀ i, 0 ≤ env.g i) (word : List Char) (hw : word ≠ []) :
    ∀ s, ∃ (acts : List Action) (s' : St),
      typeWords env (word :: []) s = (acts, StepRes.cont s') ∧
      keys acts = word.map (fun c => Action.char c true) ∧
      ∀ a ∈ acts, (∃ c, a = Action.char c true) ∨
        (∃ v, a = Action.sleep SleepKind.charDelay v) := by
  intro s
  obtain ⟨acts, s', h1, h1k, h1mem⟩ := typeWordChars_noTypo hstop hcf hr hg
    (charDelayOf env.cfg (1 - env.cfg.speed_variation +
      env.g s.ri * (1 + env.cfg.speed_variation - (1 - env.cfg.speed_variation))))
    word { s with ri := s.ri + 1, si := s.si + 1 }
  refine ⟨acts, s', ?_, h1k, h1mem⟩
  unfold typeWords
  rw [stopCheck_false hstop]
  simp only [seq]
  try dsimp only
  rw [if_neg hw]
  simp only [uniformD, draw]
  try dsimp only
  rw [h1]
  simp only [seq]
  try dsimp only
  simp [typeWords]

theorem typeLines_one_line_noTypo {env : Env} (hstop : env.stop = fun _ => false)
    (hcf : env.cfail = fun _ => false) (hr : env.cfg.typo_rate = 0)
    (hg : ∀ i, 0 ≤ env.g i) (prev : Option (List Char)) (line : List Char) (hw : line ≠ [])
    (hsp : splitOnChar ' ' line = line :: []) (hnb : pyStripL line ≠ [])
    (hps : (match prev with
            | some p => pyStripL p == ([] : List Char)
            | none => false) = false) :
    ∀ s, ∃ (acts : List Action) (s' : St),
      typeLines env prev (line :: []) s = (acts, StepRes.cont s') ∧
      keys acts = line.map (fun c => Action.char c true) ∧
      ∀ a ∈ acts, (∃ c, a = Action.char c true) ∨
        (∃ v, a = Action.sleep SleepKind.charDelay v) := by
  intro s
  obtain ⟨acts, s', h1, h1k, h1mem⟩ := typeWords_noTypo_single hstop hcf hr hg
    line hw { s with si := s.si + 1 }
  refine ⟨acts, s', ?_, h1k, h1mem⟩
  unfold typeLines
  rw [stopCheck_false hstop]
  simp only [seq]
  try dsimp only
  rw [if_neg (by rw [hps]; simp)]
  simp only [seq]
  try dsimp only
  rw [if_pos hnb, hsp, h1]
  simp only [seq]
  try dsimp only
  simp [typeLines]

theorem typeLines_HiBye_noTypo {env : Env} (hstop : env.stop = fun _ => false)
    (hk : env.kfail = fun _ => false) (hcf : env.cfail = fun _ => false)
    (hr : env.cfg.typo_rate = 0) (hg : ∀ i, 0 ≤ env.g i) :
    ∀ s, ∃ (acts1 : List Action) (v : ℚ) (acts2 : List Action) (s' : St),
      typeLines env none (('H' :: 'i' :: '.' :: []) :: ('B' :: 'y' :: 'e' :: []) :: []) s =
        (acts1 ++ (Action.enter :: Action.sleep SleepKind.lineGap v :: acts2),
         StepRes.cont s') ∧
      keys acts1 = ('H' :: 'i' :: '.' :: []).map (fun c => Action.char c true) ∧
      (∀ a ∈ acts1, (∃ c, a = Action.char c true) ∨
        (∃ w, a = Action.sleep SleepKind.charDelay w)) ∧
      keys acts2 = ('B' :: 'y' :: 'e' :: []).map (fun c => Action.char c true) ∧
      (∀ a ∈ acts2, (∃ c, a = Action.char c true) ∨
        (∃ w, a = Action.sleep SleepKind.charDelay w)) := by
  intro s
  obtain ⟨acts1, sA, h1, h1k, h1mem⟩ := typeWords_noTypo_single hstop hcf hr hg
    ('H' :: 'i' :: '.' :: []) (by decide) { s with si := s.si + 1 }
  obtain ⟨acts2, sB, h2, h2k, h2mem⟩ := typeLines_one_line_noTypo hstop hcf hr hg
    (some ('H' :: 'i' :: '.' :: [])) ('B' :: 'y' :: 'e' :: []) (by decide) (by decide)
    (by decide) (by decide) { sA with ri := sA.ri + 1, si := sA.si + 1, ki := sA.ki + 1 }
  refine ⟨acts1, 5/100 + env.g sA.ri * (15/100 - 5/100), acts2, sB, ?_, h1k, h1mem, h2k, h2mem⟩
  unfold typeLines
  rw [stopCheck_false hstop]
  simp only [seq]
  try dsimp only
  rw [if_neg (by simp)]
  simp only [seq]
  try dsimp only
  rw [if_pos (by decide),
    (show splitOnChar ' ' ('H' :: 'i' :: '.' :: []) = ('H' :: 'i' :: '.' :: []) :: [] from rfl),
    h1]
  simp only [seq]
  try dsimp only
  rw [stopCheck_false hstop]
  simp only [seq]
  try dsimp only
  rw [rawKey_false hk]
  simp only [seq]
  try dsimp only
  rw [if_neg (by decide)]
  simp only [uniformD, draw]
  try dsimp only
  try simp only [seq]
  try dsimp only
  rw [h2]
  try simp
  try rfl

theorem sleepKindCount_eq_zero {k : SleepKind} {l : List Action}
    (h : ∀ a ∈ l, ∀ v, a ≠ Action.sleep k v) : sleepKindCount k l = 0 := by
  unfold sleepKindCount
  rw [List.countP_eq_zero]
  intro a ha hp
  cases a with
  | char c b => simp at hp
  | space => simp at hp
  | enter => simp at hp
  | backspace => simp at hp
  | status m => simp at hp
  | finished => simp at hp
  | sleep k1 d =>
    simp only [beq_iff_eq] at hp
    exact absurd rfl (hp ▸ h _ ha d)

theorem count_eq_zero_of_forall_ne {a : Action} {l : List Action}
    (h : ∀ x ∈ l, x ≠ a) : l.count a = 0 :=
  List.count_eq_zero.mpr (fun hmem => (h a hmem) rfl)

/-- C4, counterexample to the claim as stated: with the fixture draws, the
run over the text Hi.(newline)Bye emits no sentence pause at all — the
sentence-pause branch fires only at inter-word boundaries, and the word
Hi. is the last (only) word of its line — while the claim requires a
sentence pause between the period and ENTER.  The keystrokes themselves,
the single completion notification and the final status are as claimed. -/
theorem claim_C4_counterexample :
    sleepKindCount SleepKind.sentencePause
      (run envA ('H' :: 'i' :: '.' :: '\n' :: 'B' :: 'y' :: 'e' :: [])).1 = 0 ∧
    keys (run envA ('H' :: 'i' :: '.' :: '\n' :: 'B' :: 'y' :: 'e' :: [])).1 =
      [Action.char 'H' true, Action.char 'i' true, Action.char '.' true, Action.enter,
       Action.char 'B' true, Action.char 'y' true, Action.char 'e' true] := by
  decide

/-- C4, amended: for the text Hi.(newline)Bye with typo rate 0 and pause
frequency 0, the emitted keystrokes are exactly H, i, ., ENTER, B, y, e —
no spaces (both lines are single-word) and no backspaces; no sentence
pause occurs (the sentence-pause branch fires only at inter-word
boundaries and Hi. is the last word of its line); exactly one line-gap
pause follows ENTER; the completion notification fires once, the run
completes, and the final status is the completion message.  Holds for
every random stream with nonnegative draws, the stop flag clear and a
failure-free sink. -/
theorem claim_C4_hibye_trace {env : Env} (hstop : env.stop = fun _ => false)
    (hk : env.kfail = fun _ => false) (hcf : env.cfail = fun _ => false)
    (hr : env.cfg.typo_rate = 0) (_hpf : env.cfg.pause_freq = 0)
    (hg : ∀ i, 0 ≤ env.g i) :
    keys (run env ('H' :: 'i' :: '.' :: '\n' :: 'B' :: 'y' :: 'e' :: [])).1 =
      [Action.char 'H' true, Action.char 'i' true, Action.char '.' true, Action.enter,
       Action.char 'B' true, Action.char 'y' true, Action.char 'e' true] ∧
    sleepKindCount SleepKind.sentencePause
      (run env ('H' :: 'i' :: '.' :: '\n' :: 'B' :: 'y' :: 'e' :: [])).1 = 0 ∧
    sleepKindCount SleepKind.lineGap
      (run env ('H' :: 'i' :: '.' :: '\n' :: 'B' :: 'y' :: 'e' :: [])).1 = 1 ∧
    (run env ('H' :: 'i' :: '.' :: '\n' :: 'B' :: 'y' :: 'e' :: [])).1.count
      Action.finished = 1 ∧
    (run env ('H' :: 'i' :: '.' :: '\n' :: 'B' :: 'y' :: 'e' :: [])).2 =
      Outcome.completed ∧
    lastStatus (run env ('H' :: 'i' :: '.' :: '\n' :: 'B' :: 'y' :: 'e' :: [])).1 =
      some "Done!" := by
  obtain ⟨cacts, hcd, hcmem⟩ := countdown_nostop hstop 5 st0
  obtain ⟨acts1, v, acts2, sB, hTL, h1k, h1mem, h2k, h2mem⟩ :=
    typeLines_HiBye_noTypo hstop hk hcf hr hg { st0 with si := st0.si + 5 }
  have hrun := run_trace_of_lines hcd
    (t := ('H' :: 'i' :: '.' :: '\n' :: 'B' :: 'y' :: 'e' :: []))
    (by rw [show splitOnChar '\n' ('H' :: 'i' :: '.' :: '\n' :: 'B' :: 'y' :: 'e' :: []) =
          (('H' :: 'i' :: '.' :: []) :: ('B' :: 'y' :: 'e' :: []) :: []) from rfl]
        exact hTL)
  have hck : keys cacts = [] := by
    apply keys_nil_of_noKey
    intro a ha
    rcases hcmem a ha with ⟨m, h⟩ | ⟨w, h⟩ <;> subst h <;> rfl
  refine ⟨?_, ?_, ?_, ?_, ?_, ?_⟩
  · rw [hrun]
    try dsimp only
    rw [keys_append, keys_append, keys_append, hck, keys_append]
    simp only [keys] at h1k h2k ⊢
    simp [h1k, h2k, Action.isKey]
  · rw [hrun]
    try dsimp only
    simp only [sleepKindCount_append]
    rw [sleepKindCount_eq_zero (k := SleepKind.sentencePause) (l := cacts) ?c1,
        sleepKindCount_eq_zero (l := acts1) ?c2,
        sleepKindCount_eq_zero
          (l := Action.enter :: Action.sleep SleepKind.lineGap v :: acts2) ?c3]
    case c1 =>
      intro a ha w
      rcases hcmem a ha with ⟨m, h⟩ | ⟨u, h⟩ <;> subst h <;> simp
    case c2 =>
      intro a ha w
      rcases h1mem a ha with ⟨c, h⟩ | ⟨u, h⟩ <;> subst h <;> simp
    case c3 =>
      intro a ha w
      rcases List.mem_cons.mp ha with h | ha2
      · subst h; simp
      · rcases List.mem_cons.mp ha2 with h | ha3
        · subst h; simp
        · rcases h2mem a ha3 with ⟨c, hh⟩ | ⟨u, hh⟩ <;> subst hh <;> simp
    simp [sleepKindCount]
  · rw [hrun]
    try dsimp only
    simp only [sleepKindCount_append]
    rw [sleepKindCount_eq_zero (k := SleepKind.lineGap) (l := cacts) ?d1,
        sleepKindCount_eq_zero (l := acts1) ?d2]
    case d1 =>
      intro a ha w
      rcases hcmem a ha with ⟨m, h⟩ | ⟨u, h⟩ <;> subst h <;> simp
    case d2 =>
      intro a ha w
      rcases h1mem a ha with ⟨c, h⟩ | ⟨u, h⟩ <;> subst h <;> simp
    have h2z : sleepKindCount SleepKind.lineGap acts2 = 0 := by
      apply sleepKindCount_eq_zero
      intro a ha w
      rcases h2mem a ha with ⟨c, h⟩ | ⟨u, h⟩ <;> subst h <;> simp
    have hcons : sleepKindCount SleepKind.lineGap
        (Action.enter :: Action.sleep SleepKind.lineGap v :: acts2) = 1 := by
      unfold sleepKindCount at h2z ⊢
      simp [List.countP_cons, h2z]
    rw [hcons]
    simp [sleepKindCount]
  · rw [hrun]
    try dsimp only
    simp only [List.count_append]
    rw [count_eq_zero_of_forall_ne (l := cacts) ?e1,
        count_eq_zero_of_forall_ne (l := acts1) ?e2,
        count_eq_zero_of_forall_ne
          (l := Action.enter :: Action.sleep SleepKind.lineGap v :: acts2) ?e3]
    case e1 =>
      intro x hx
      rcases hcmem x hx with ⟨m, h⟩ | ⟨u, h⟩ <;> subst h <;> simp
    case e2 =>
      intro x hx
      rcases h1mem x hx with ⟨c, h⟩ | ⟨u, h⟩ <;> subst h <;> simp
    case e3 =>
      intro x hx
      rcases List.mem_cons.mp hx with h | hx2
      · subst h; simp
      · rcases List.mem_cons.mp hx2 with h | hx3
        · subst h; simp
        · rcases h2mem x hx3 with ⟨c, hh⟩ | ⟨u, hh⟩ <;> subst hh <;> simp
    simp [List.count_cons]
  · rw [hrun]
  · rw [hrun]
    unfold lastStatus
    rw [List.filterMap_append,
      (show List.filterMap (fun a =>
        match a with
        | Action.status m => some m
        | _ => none) [Action.status "Done!", Action.finished] = ["Done!"] from rfl)]
    exact List.getLast?_concat _

theorem claim_C4_witness :
    keys (run envA ('H' :: 'i' :: '.' :: '\n' :: 'B' :: 'y' :: 'e' :: [])).1 =
      [Action.char 'H' true, Action.char 'i' true, Action.char '.' true, Action.enter,
       Action.char 'B' true, Action.char 'y' true, Action.char 'e' true] ∧
    sleepKindCount SleepKind.lineGap
      (run envA ('H' :: 'i' :: '.' :: '\n' :: 'B' :: 'y' :: 'e' :: [])).1 = 1 :=
  ⟨(claim_C4_hibye_trace rfl rfl rfl rfl rfl (fun i => by norm_num [envA])).1,
   (claim_C4_hibye_trace rfl rfl rfl rfl rfl (fun i => by norm_num [envA])).2.2.1⟩

theorem claim_C9_witness :
    typeWords envA (([] : List Char) :: ('a' :: []) :: []) st0 =
      typeWords envA (('a' :: []) :: []) { st0 with si := st0.si + 1 } ∧
    (typeWords envA (('a' :: []) :: ([] : List Char) :: ('b' :: []) :: []) st0).1.countP
        (fun a => a == Action.space) =
      expectedSpaces (('a' :: []) :: ([] : List Char) :: ('b' :: []) :: []) :=
  ⟨(claim_C9_empty_words_skipped rfl rfl).1 (('a' :: []) :: []) st0,
   ((claim_C9_empty_words_skipped rfl rfl).2
     (('a' :: []) :: ([] : List Char) :: ('b' :: []) :: []) st0).1⟩

end HumanTyper
